import Mathlib

/-!
Verification of the OptToolKit chatbot retrieval core against its
natural-language specification.

The Lean definitions below are shallow embeddings of the Python code under
`app/services/chatbot/`.  Text is modelled at the token level (tiktoken's
`encode`/`decode` round-trip is the identity on the serialized text, so a
chunk is represented by its token slice), rational numbers stand for the
float scores (no claim here depends on IEEE rounding: the exact float
expressions used by the code — `1.0*s + 0.0*k` etc. — are exact in IEEE as
well), and external capabilities (ChromaDB query results, the OpenAI
embedding endpoint) are inputs or oracle parameters.
-/

namespace DataProcessor

/-- `DataProcessor.__init__` (data_processor.py:141-145): fixed chunk size of
512 tokens. -/
def chunk_size : Nat := 512

/-- `DataProcessor.__init__` (data_processor.py:141-145): fixed overlap of
100 tokens. -/
def chunk_overlap : Nat := 100

/-- The `while start < len(tokens)` loop of `DataProcessor.chunk_events`
(data_processor.py:393-421): emit `tokens[start:min(start+512, len)]`; stop
when the end of the token list is reached, otherwise continue from
`end - 100`.  The loop advances `start` by at least 412 per iteration, so
`fuel := tokens.length` always suffices; the fuel argument only makes the
recursion structural. -/
def chunkLoop (α : Type) : Nat → List α → Nat → List (List α)
  | 0, tokens, start => [tokens.drop start]
  | fuel + 1, tokens, start =>
      if tokens.length ≤ start + chunk_size then [tokens.drop start]
      else (tokens.drop start).take chunk_size ::
        chunkLoop α fuel tokens (start + (chunk_size - chunk_overlap))

/-- `DataProcessor.chunk_events`, single-event core (data_processor.py:375-421):
an event whose serialized text encodes to at most 512 tokens becomes exactly
one chunk holding the full text; otherwise the token sequence is split by the
sliding-window loop. -/
def chunkEvent {α : Type} (tokens : List α) : List (List α) :=
  if tokens.length ≤ chunk_size then [tokens]
  else chunkLoop α tokens.length tokens 0

/-- Concatenation of an event's chunks discounting each later chunk's leading
100-token overlap region (the spec's reconstruction reading of the chunk
invariant). -/
def reconstruct {α : Type} (chunks : List (List α)) : List α :=
  match chunks with
  | [] => []
  | c :: rest => c ++ (rest.map (List.drop chunk_overlap)).flatten

/-- The `i`-th sliding window starting from offset `s`: 512 tokens starting
at `s + 412*i`. -/
def window {α : Type} (tokens : List α) (s i : Nat) : List α :=
  (tokens.drop (s + (chunk_size - chunk_overlap) * i)).take chunk_size

theorem range_one_eq : List.range 1 = [0] := by
  rw [List.range_succ]
  simp

theorem window_of_small {α : Type} (tokens : List α) (s : Nat)
    (h : tokens.length ≤ s + chunk_size) : window tokens s 0 = tokens.drop s := by
  simp only [window, Nat.mul_zero, Nat.add_zero]
  apply List.take_of_length_le
  simp only [List.length_drop, chunk_size] at h ⊢
  omega

theorem windows_shift {α : Type} (tokens : List α) (s n : Nat) :
    (List.range (n + 1)).map (window tokens s) =
      window tokens s 0 ::
        (List.range n).map (window tokens (s + (chunk_size - chunk_overlap))) := by
  rw [List.range_succ_eq_map]
  simp only [List.map_cons, List.map_map]
  refine congrArg (window tokens s 0 :: ·) ?_
  apply List.map_congr_left
  intro i _
  simp only [Function.comp_apply, window, chunk_size, chunk_overlap]
  congr 2
  omega

theorem chunkLoop_windows {α : Type} (tokens : List α) :
    ∀ (fuel s : Nat), tokens.length ≤ s + chunk_size + 412 * fuel →
      ∃ n : Nat, 1 ≤ n ∧
        chunkLoop α fuel tokens s = (List.range n).map (window tokens s) ∧
        tokens.length ≤ s + 412 * (n - 1) + chunk_size ∧
        (∀ i, i < n - 1 → s + 412 * i + chunk_size < tokens.length) := by
  intro fuel
  induction fuel with
  | zero =>
      intro s hs
      have hle : tokens.length ≤ s + chunk_size := by
        simpa using hs
      refine ⟨1, le_refl 1, ?_, by simpa using hle, by omega⟩
      rw [range_one_eq]
      simp only [chunkLoop, List.map_cons, List.map_nil, window_of_small tokens s hle]
  | succ fuel ih =>
      intro s hs
      by_cases hle : tokens.length ≤ s + chunk_size
      · refine ⟨1, le_refl 1, ?_, by simpa using hle, by omega⟩
        rw [range_one_eq]
        simp only [chunkLoop, if_pos hle, List.map_cons, List.map_nil,
          window_of_small tokens s hle]
      · obtain ⟨n, hn1, heq, hbound, hfull⟩ :=
          ih (s + (chunk_size - chunk_overlap))
            (by simp [chunk_size, chunk_overlap] at hs ⊢; omega)
        refine ⟨n + 1, by omega, ?_, ?_, ?_⟩
        · rw [windows_shift]
          simp only [chunkLoop, if_neg hle, heq]
          refine congrArg (· :: _) ?_
          simp only [window, Nat.mul_zero, Nat.add_zero]
        · simp only [chunk_size, chunk_overlap] at hbound ⊢
          omega
        · intro i hi
          rcases Nat.eq_zero_or_pos i with rfl | hipos
          · simp only [chunk_size] at hle ⊢
            omega
          · obtain ⟨j, rfl⟩ := Nat.exists_eq_succ_of_ne_zero (by omega : i ≠ 0)
            have := hfull j (by omega)
            simp only [chunk_size, chunk_overlap] at this ⊢
            omega

theorem flatten_map_drop_overlap {α : Type} (d : List α) (t : List (List α))
    (hd : chunk_overlap ≤ d.length) :
    ((d :: t).map (List.drop chunk_overlap)).flatten =
      List.drop chunk_overlap (reconstruct (d :: t)) := by
  simp only [List.map_cons, List.flatten_cons, reconstruct]
  rw [List.drop_append_of_le_length hd]

theorem reconstruct_windows {α : Type} (tokens : List α) :
    ∀ (n s : Nat), 1 ≤ n →
      tokens.length ≤ s + 412 * (n - 1) + chunk_size →
      (∀ i, i < n - 1 → s + 412 * i + chunk_size < tokens.length) →
      reconstruct ((List.range n).map (window tokens s)) = tokens.drop s := by
  intro n
  induction n with
  | zero => intro s h0; omega
  | succ n ih =>
      intro s _ hbound hfull
      rcases Nat.eq_zero_or_pos n with rfl | hn
      · rw [range_one_eq]
        simp only [List.map_cons, List.map_nil, reconstruct, List.flatten_nil,
          List.append_nil]
        apply window_of_small
        simpa using hbound
      · have hrange : (List.range (n + 1)).map (window tokens s) =
            window tokens s 0 :: (List.range n).map (window tokens (s + 412)) := by
          have := windows_shift tokens s n
          simpa [chunk_size, chunk_overlap] using this
        have hs512 : s + chunk_size < tokens.length := by
          have := hfull 0 (by omega)
          simpa using this
        have ihres : reconstruct ((List.range n).map (window tokens (s + 412))) =
            tokens.drop (s + 412) := by
          apply ih (s + 412) hn
          · simp only [chunk_size] at hbound ⊢; omega
          · intro i hi
            have := hfull (i + 1) (by omega)
            simp only [chunk_size] at this ⊢; omega
        have hne : (List.range n).map (window tokens (s + 412)) ≠ [] := by
          simp [List.range_eq_nil]
          omega
        obtain ⟨d, t, hdt⟩ := List.exists_cons_of_ne_nil hne
        have hdlen : chunk_overlap ≤ d.length := by
          have : d = window tokens (s + 412) 0 := by
            have : ((List.range n).map (window tokens (s + 412))).head? = some d := by
              rw [hdt]; rfl
            rw [List.head?_map] at this
            have hr : (List.range n).head? = some 0 := by
              cases n with
              | zero => omega
              | succ m => rw [List.range_succ_eq_map]; rfl
            rw [hr] at this
            simpa using this.symm
          rw [this]
          simp only [window, List.length_take, List.length_drop, chunk_size,
            chunk_overlap] at hs512 ⊢
          omega
        rw [hrange, reconstruct, hdt, flatten_map_drop_overlap d t hdlen, ← hdt,
          ihres]
        have : (List.drop chunk_overlap (List.drop (s + 412) tokens)) =
            List.drop chunk_size (tokens.drop s) := by
          rw [List.drop_drop, List.drop_drop]
          congr 1
        rw [this]
        simp only [window, Nat.mul_zero, Nat.add_zero]
        exact List.take_append_drop _ _

/-- CLAIM C2 — `DataProcessor.chunk_events` (data_processor.py:375-429).
An event whose serialized token sequence fits the 512-token budget becomes
exactly one chunk holding the full sequence; a larger event is split into
the sliding windows `tokens[412*i : 412*i + 512]` (512-token window,
100-token overlap, so consecutive starts differ by 412) until all tokens
are consumed (the last window may be shorter), and concatenating the chunks
while discounting each later chunk's leading 100-token overlap reproduces
the full token sequence exactly. -/
theorem chunk_events_single_split_reconstruct {α : Type} (tokens : List α) :
    (tokens.length ≤ 512 → chunkEvent tokens = [tokens]) ∧
    (512 < tokens.length →
      ∃ n : Nat, 2 ≤ n ∧
        chunkEvent tokens =
          (List.range n).map (fun i => (tokens.drop (412 * i)).take 512) ∧
        tokens.length ≤ 412 * (n - 1) + 512 ∧
        (∀ i, i < n - 1 → 412 * i + 512 < tokens.length)) ∧
    reconstruct (chunkEvent tokens) = tokens := by
  refine ⟨?_, ?_, ?_⟩
  · intro h
    simp [chunkEvent, chunk_size, h]
  · intro h
    obtain ⟨n, hn1, heq, hbound, hfull⟩ :=
      chunkLoop_windows tokens tokens.length 0
        (by simp [chunk_size]; omega)
    have hn2 : 2 ≤ n := by
      by_contra hlt
      have : n = 1 := by omega
      subst this
      simp [chunk_size] at hbound
      omega
    refine ⟨n, hn2, ?_, by simpa [chunk_size] using hbound, ?_⟩
    · rw [chunkEvent, if_neg (by simp [chunk_size]; omega), heq]
      apply List.map_congr_left
      intro i _
      simp [window, chunk_size, chunk_overlap]
    · intro i hi
      have := hfull i hi
      simpa [chunk_size] using this
  · by_cases h : tokens.length ≤ chunk_size
    · rw [chunkEvent, if_pos h]
      simp [reconstruct]
    · obtain ⟨n, hn1, heq, hbound, hfull⟩ :=
        chunkLoop_windows tokens tokens.length 0
          (by simp [chunk_size]; omega)
      rw [chunkEvent, if_neg h, heq,
        reconstruct_windows tokens n 0 hn1 (by simpa using hbound)
          (by simpa using hfull)]
      simp

/-- Witness for C2: a 100-token event yields one chunk; a 600-token event is
split and reconstructs exactly. -/
theorem chunk_events_single_split_reconstruct_witness :
    (chunkEvent (List.replicate 100 0) = [List.replicate 100 (0 : Nat)]) ∧
    (∃ n : Nat, 2 ≤ n ∧
      chunkEvent (List.replicate 600 (0 : Nat)) =
        (List.range n).map
          (fun i => ((List.replicate 600 (0 : Nat)).drop (412 * i)).take 512) ∧
      (List.replicate 600 (0 : Nat)).length ≤ 412 * (n - 1) + 512 ∧
      (∀ i, i < n - 1 → 412 * i + 512 < (List.replicate 600 (0 : Nat)).length)) ∧
    reconstruct (chunkEvent (List.replicate 600 (0 : Nat))) =
      List.replicate 600 0 :=
  ⟨(chunk_events_single_split_reconstruct (List.replicate 100 0)).1
      (by rw [List.length_replicate]; omega),
   (chunk_events_single_split_reconstruct (List.replicate 600 0)).2.1
      (by rw [List.length_replicate]; omega),
   (chunk_events_single_split_reconstruct (List.replicate 600 0)).2.2⟩

end DataProcessor

namespace EmbeddingService

/-- Embedding vectors are opaque data; the model never inspects them. -/
abbrev Vec := List Int

/-- The in-memory embedding cache `self.cache` (embedding_service.py:64),
a Python dict keyed by the MD5 hash of the chunk text.  MD5 is modelled as
injective, so the text itself serves as the key; insertion-ordered
association lists model Python dicts. -/
abbrev Cache := List (String × Vec)

/-- Python dict assignment `cache[k] = v`: overwrite an existing key in
place, otherwise append. -/
def cacheInsert (c : Cache) (k : String) (v : Vec) : Cache :=
  if c.any (fun p => p.1 == k) then
    c.map (fun p => if p.1 = k then (k, v) else p)
  else c ++ [(k, v)]

/-- Successive dict assignments for a list of texts, each mapped to the
embedding the external API returns for it (`api` is the response oracle). -/
def insertAll (m : Cache) (api : String → Vec) (ts : List String) : Cache :=
  ts.foldl (fun acc t => cacheInsert acc t (api t)) m

/-- The cache-splitting loop of `EmbeddingService.embed_batch`
(embedding_service.py:163-189): resolve cache hits into `results`, collect
misses (in order, duplicates kept) into `uncached_texts`.  With
`use_cache=False` every text is a miss. -/
def splitStep (cache : Cache) (uc : Bool) (acc : Cache × List String)
    (t : String) : Cache × List String :=
  if uc then
    match List.lookup t cache with
    | some v => (cacheInsert acc.1 t v, acc.2)
    | none => (acc.1, acc.2 ++ [t])
  else (acc.1, acc.2 ++ [t])

def splitCached (cache : Cache) (uc : Bool) (texts : List String) :
    Cache × List String :=
  texts.foldl (splitStep cache uc) ([], [])

/-- The 100-text slicing of `_embed_direct` (embedding_service.py:255-288):
`num_chunks = ceil(len/100)` slices of at most 100 texts.  Structural fuel
(`fuel := length`) replaces the arithmetic loop bound. -/
def chunksOfAux : Nat → List String → List (List String)
  | 0, _ => []
  | fuel + 1, l => if l.isEmpty then [] else l.take 100 :: chunksOfAux fuel (l.drop 100)

def chunksOf (l : List String) : List (List String) := chunksOfAux l.length l

/-- Result of one `embed_batch` call: the returned hash-to-vector dict, the
cache afterwards, the list of synchronous `embeddings.create` calls issued
(each one the list of texts sent), whether the `'pending': True` marker was
returned, and whether a Batch-API job was created. -/
structure BatchOut where
  results : Cache
  cache : Cache
  calls : List (List String)
  pending : Bool
  submitted : Bool
  deriving Repr, DecidableEq

/-- `EmbeddingService._embed_direct` (embedding_service.py:214-298): if the
aggregate token count is at most the 250K safety ceiling, a single
synchronous call embeds all texts; otherwise the texts are sent in slices
of 100.  Every embedded text is stored in `results` and (with caching) in
the cache. -/
def embedDirect (cache results : Cache) (texts : List String)
    (tok : String → Nat) (api : String → Vec) (uc : Bool) : BatchOut :=
  if (texts.map tok).sum ≤ 250000 then
    { results := insertAll results api texts
      cache := if uc then insertAll cache api texts else cache
      calls := [texts], pending := false, submitted := false }
  else
    { results := (chunksOf texts).foldl (fun acc c => insertAll acc api c) results
      cache := if uc then (chunksOf texts).foldl (fun acc c => insertAll acc api c) cache
               else cache
      calls := chunksOf texts, pending := false, submitted := false }

/-- `EmbeddingService.embed_batch` (embedding_service.py:145-212) together
with the Batch-API branch `_embed_batch_api` (300-365): resolve cache hits;
if nothing is uncached return immediately; below the threshold go direct;
at or above it submit a Batch-API job and return `{'batch_job', 'pending'}`
(`submitOk = true`), falling back to the direct path if submission raises
(`submitOk = false`). -/
def embedBatch (cache : Cache) (texts : List String) (thr : Nat)
    (tok : String → Nat) (api : String → Vec) (submitOk uc : Bool) : BatchOut :=
  let split := splitCached cache uc texts
  if split.2.isEmpty then
    { results := split.1, cache := cache, calls := [], pending := false,
      submitted := false }
  else if split.2.length < thr then
    embedDirect cache split.1 split.2 tok api uc
  else if submitOk then
    { results := [], cache := cache, calls := [], pending := true, submitted := true }
  else
    embedDirect cache split.1 split.2 tok api uc

theorem lookup_cons_eq (a : String) (p : String × Vec) (l : Cache) :
    List.lookup a (p :: l) = bif a == p.1 then some p.2 else List.lookup a l := by
  obtain ⟨x, y⟩ := p
  rw [List.lookup_cons]
  cases a == x <;> rfl

theorem lookup_map_update (k t : String) (v : Vec) (h : t ≠ k) :
    ∀ c : Cache,
      List.lookup t (c.map (fun p => if p.1 = k then (k, v) else p)) =
        List.lookup t c := by
  have htk : (t == k) = false := by simpa [beq_iff_eq] using h
  intro c
  induction c with
  | nil => rfl
  | cons p rest ih =>
      by_cases hp : p.1 = k
      · have h1 : (t == p.1) = false := by rw [hp]; exact htk
        simp only [List.map_cons, if_pos hp, lookup_cons_eq, htk, h1, cond_false]
        exact ih
      · simp only [List.map_cons, if_neg hp, lookup_cons_eq]
        cases t == p.1 with
        | true => rfl
        | false => simpa only [cond_false] using ih

theorem lookup_append_single (k t : String) (v : Vec) (h : t ≠ k) :
    ∀ c : Cache, List.lookup t (c ++ [(k, v)]) = List.lookup t c := by
  have htk : (t == k) = false := by simpa [beq_iff_eq] using h
  intro c
  induction c with
  | nil => simp [lookup_cons_eq, htk]
  | cons p rest ih =>
      simp only [List.cons_append, lookup_cons_eq]
      cases t == p.1 with
      | true => rfl
      | false => simpa only [cond_false] using ih

theorem lookup_map_update_self (k : String) (v : Vec) :
    ∀ c : Cache, c.any (fun p => p.1 == k) = true →
      List.lookup k (c.map (fun p => if p.1 = k then (k, v) else p)) = some v := by
  intro c
  induction c with
  | nil => intro h; simp at h
  | cons p rest ih =>
      intro h
      by_cases hp : p.1 = k
      · simp [List.map_cons, if_pos hp, lookup_cons_eq]
      · have h2 : (k == p.1) = false := by
          simp only [beq_eq_false_iff_ne]
          exact fun he => hp he.symm
        simp only [List.map_cons, if_neg hp, lookup_cons_eq, h2, cond_false]
        apply ih
        simp only [List.any_cons, Bool.or_eq_true] at h
        rcases h with h | h
        · exact absurd (by simpa [beq_iff_eq] using h) hp
        · exact h

theorem lookup_append_single_self (k : String) (v : Vec) :
    ∀ c : Cache, c.any (fun p => p.1 == k) = false →
      List.lookup k (c ++ [(k, v)]) = some v := by
  intro c
  induction c with
  | nil => intro _; simp [lookup_cons_eq]
  | cons p rest ih =>
      intro h
      simp only [List.any_cons, Bool.or_eq_false_iff] at h
      have hne : p.1 ≠ k := by
        intro he
        rw [show (p.1 == k) = true from by simpa [beq_iff_eq] using he] at h
        exact absurd h.1 (by decide)
      have h2 : (k == p.1) = false := by
        simp only [beq_eq_false_iff_ne]
        exact fun he => hne he.symm
      simp only [List.cons_append, lookup_cons_eq, h2, cond_false]
      exact ih h.2

theorem lookup_cacheInsert_self (c : Cache) (k : String) (v : Vec) :
    (List.lookup k (cacheInsert c k v)).isSome := by
  unfold cacheInsert
  by_cases h : c.any (fun p => p.1 == k)
  · rw [if_pos h, lookup_map_update_self k v c h]; rfl
  · rw [if_neg h, lookup_append_single_self k v c (Bool.eq_false_iff.mpr h)]; rfl

theorem lookup_cacheInsert_ne (c : Cache) (k t : String) (v : Vec) (h : t ≠ k) :
    List.lookup t (cacheInsert c k v) = List.lookup t c := by
  unfold cacheInsert
  by_cases hc : c.any (fun p => p.1 == k)
  · rw [if_pos hc]
    exact lookup_map_update k t v h c
  · rw [if_neg hc]
    exact lookup_append_single k t v h c

theorem lookup_cacheInsert_isSome (c : Cache) (k t : String) (v : Vec)
    (h : (List.lookup t c).isSome) :
    (List.lookup t (cacheInsert c k v)).isSome := by
  by_cases ht : t = k
  · subst ht; exact lookup_cacheInsert_self c t v
  · rw [lookup_cacheInsert_ne c k t v ht]; exact h

theorem lookup_insertAll_isSome (api : String → Vec) :
    ∀ (ts : List String) (m : Cache) (t : String),
      ((List.lookup t m).isSome ∨ t ∈ ts) →
      (List.lookup t (insertAll m api ts)).isSome := by
  intro ts
  induction ts with
  | nil =>
      intro m t h
      rcases h with h | h
      · simpa [insertAll] using h
      · simp at h
  | cons a rest ih =>
      intro m t h
      show (List.lookup t (insertAll (cacheInsert m a (api a)) api rest)).isSome
      apply ih
      rcases h with h | h
      · exact Or.inl (lookup_cacheInsert_isSome m a t (api a) h)
      · rcases List.mem_cons.mp h with rfl | h
        · exact Or.inl (lookup_cacheInsert_self m t (api t))
        · exact Or.inr h

theorem insertAll_append (api : String → Vec) (m : Cache) (a b : List String) :
    insertAll m api (a ++ b) = insertAll (insertAll m api a) api b := by
  simp [insertAll, List.foldl_append]

theorem chunksOfAux_flatten :
    ∀ (fuel : Nat) (l : List String), l.length ≤ fuel →
      (chunksOfAux fuel l).flatten = l := by
  intro fuel
  induction fuel with
  | zero =>
      intro l hl
      have : l = [] := List.eq_nil_of_length_eq_zero (by omega)
      subst this; rfl
  | succ fuel ih =>
      intro l hl
      by_cases he : l.isEmpty
      · have : l = [] := by simpa [List.isEmpty_iff] using he
        subst this; rfl
      · simp only [chunksOfAux, if_neg he, List.flatten_cons]
        rw [ih (l.drop 100) (by simp [List.length_drop]; omega)]
        exact List.take_append_drop 100 l

theorem chunksOf_flatten (l : List String) : (chunksOf l).flatten = l :=
  chunksOfAux_flatten l.length l (le_refl _)

theorem chunksOfAux_mem :
    ∀ (fuel : Nat) (l : List String) (c : List String),
      c ∈ chunksOfAux fuel l → c ≠ [] ∧ c.length ≤ 100 := by
  intro fuel
  induction fuel with
  | zero => intro l c hc; simp [chunksOfAux] at hc
  | succ fuel ih =>
      intro l c hc
      by_cases he : l.isEmpty
      · simp [chunksOfAux, he] at hc
      · simp only [chunksOfAux, if_neg he, List.mem_cons] at hc
        rcases hc with rfl | hc
        · refine ⟨?_, by simp [List.length_take]⟩
          have : l ≠ [] := by simpa [List.isEmpty_iff] using he
          simpa [List.take_eq_nil_iff] using this
        · exact ih _ c hc

theorem chunksOf_mem (l c : List String) (hc : c ∈ chunksOf l) :
    c ≠ [] ∧ c.length ≤ 100 :=
  chunksOfAux_mem l.length l c hc

/-- CLAIM C8 — `EmbeddingService.embed_batch` dispatch policy
(embedding_service.py:194-212, 214-298, 300-365).  With a non-empty set of
uncached texts: below the threshold the texts are embedded synchronously,
in one call when the aggregate token count is within the 250K ceiling and
in at-most-100-text sub-calls only when it exceeds the ceiling, the calls
partitioning the uncached texts in order; at or above the threshold a bulk
job is submitted and a pending indicator returned with no synchronous
calls; if bulk submission fails the synchronous path runs instead. -/
theorem embed_batch_dispatch_policy (cache : Cache) (texts : List String)
    (thr : Nat) (tok : String → Nat) (api : String → Vec) (submitOk uc : Bool) :
    (splitCached cache uc texts).2 ≠ [] →
    (((splitCached cache uc texts).2.length < thr →
      (embedBatch cache texts thr tok api submitOk uc).pending = false ∧
      (embedBatch cache texts thr tok api submitOk uc).submitted = false ∧
      (embedBatch cache texts thr tok api submitOk uc).calls.flatten =
        (splitCached cache uc texts).2 ∧
      (((splitCached cache uc texts).2.map tok).sum ≤ 250000 →
        (embedBatch cache texts thr tok api submitOk uc).calls =
          [(splitCached cache uc texts).2]) ∧
      (250000 < ((splitCached cache uc texts).2.map tok).sum →
        ∀ c ∈ (embedBatch cache texts thr tok api submitOk uc).calls,
          c ≠ [] ∧ c.length ≤ 100)) ∧
    (thr ≤ (splitCached cache uc texts).2.length → submitOk = true →
      (embedBatch cache texts thr tok api submitOk uc).pending = true ∧
      (embedBatch cache texts thr tok api submitOk uc).submitted = true ∧
      (embedBatch cache texts thr tok api submitOk uc).calls = []) ∧
    (thr ≤ (splitCached cache uc texts).2.length → submitOk = false →
      (embedBatch cache texts thr tok api submitOk uc).pending = false ∧
      (embedBatch cache texts thr tok api submitOk uc).calls.flatten =
        (splitCached cache uc texts).2 ∧
      (((splitCached cache uc texts).2.map tok).sum ≤ 250000 →
        (embedBatch cache texts thr tok api submitOk uc).calls =
          [(splitCached cache uc texts).2]))) := by
  intro hne
  have hnemp : (splitCached cache uc texts).2.isEmpty = false := by
    simpa [List.isEmpty_iff] using hne
  refine ⟨?_, ?_, ?_⟩
  · intro hlt
    rw [embedBatch]
    simp only [hnemp, Bool.false_eq_true, if_false, if_pos hlt]
    rw [embedDirect]
    by_cases hsum : (((splitCached cache uc texts).2).map tok).sum ≤ 250000
    · rw [if_pos hsum]
      refine ⟨rfl, rfl, by simp, fun _ => rfl, fun hgt => absurd hsum (by omega)⟩
    · rw [if_neg hsum]
      refine ⟨rfl, rfl, by simpa using chunksOf_flatten _, fun hle => absurd hle hsum,
        fun _ c hc => chunksOf_mem _ c hc⟩
  · intro hge hok
    subst hok
    have hnlt : ¬ (splitCached cache uc texts).2.length < thr := by omega
    rw [embedBatch]
    simp only [hnemp, Bool.false_eq_true, if_false]
    rw [if_neg hnlt]
    exact ⟨rfl, rfl, rfl⟩
  · intro hge hok
    subst hok
    have hnlt : ¬ (splitCached cache uc texts).2.length < thr := by omega
    rw [embedBatch]
    simp only [hnemp, Bool.false_eq_true, if_false]
    rw [if_neg hnlt]
    show ((embedDirect cache (splitCached cache uc texts).1
      (splitCached cache uc texts).2 tok api uc).pending = false) ∧ _
    rw [embedDirect]
    by_cases hsum : (((splitCached cache uc texts).2).map tok).sum ≤ 250000
    · rw [if_pos hsum]
      exact ⟨rfl, by simp, fun _ => rfl⟩
    · rw [if_neg hsum]
      exact ⟨rfl, by simpa using chunksOf_flatten _, fun hle => absurd hle hsum⟩

/-- Witness for C8: two uncached texts under a threshold of five are sent
in a single synchronous call; the same texts at threshold one with a
successful submission come back pending with no synchronous call. -/
theorem embed_batch_dispatch_policy_witness :
    ((embedBatch [] ["a", "b"] 5 (fun _ => 1) (fun _ => [0]) true true).pending
        = false ∧
      (embedBatch [] ["a", "b"] 5 (fun _ => 1) (fun _ => [0]) true true).calls
        = [["a", "b"]]) ∧
    (embedBatch [] ["a", "b"] 1 (fun _ => 1) (fun _ => [0]) true true).pending
        = true := by
  have h1 := (embed_batch_dispatch_policy [] ["a", "b"] 5 (fun _ => 1)
    (fun _ => [0]) true true (by decide)).1 (by decide)
  have h2 := ((embed_batch_dispatch_policy [] ["a", "b"] 1 (fun _ => 1)
    (fun _ => [0]) true true (by decide)).2.1 (by decide) rfl).1
  exact ⟨⟨h1.1, h1.2.2.2.1 (by decide)⟩, h2⟩

theorem splitStep_snd_mono (cache : Cache) (uc : Bool) :
    ∀ (texts : List String) (acc : Cache × List String) (t : String),
      t ∈ acc.2 → t ∈ (texts.foldl (splitStep cache uc) acc).2 := by
  intro texts
  induction texts with
  | nil => intro acc t h; exact h
  | cons a rest ih =>
      intro acc t h
      apply ih
      unfold splitStep
      cases uc with
      | false => simpa using Or.inl h
      | true =>
          cases List.lookup a cache with
          | some v => simpa using h
          | none => simpa using Or.inl h

theorem splitStep_mem_snd_or_hit (cache : Cache) :
    ∀ (texts : List String) (acc : Cache × List String) (t : String),
      t ∈ texts →
      t ∈ (texts.foldl (splitStep cache true) acc).2 ∨
        (List.lookup t cache).isSome := by
  intro texts
  induction texts with
  | nil => intro acc t h; simp at h
  | cons a rest ih =>
      intro acc t h
      rcases List.mem_cons.mp h with rfl | h
      · cases hl : List.lookup t cache with
        | some v => right; rfl
        | none =>
            left
            rw [List.foldl_cons]
            apply splitStep_snd_mono
            unfold splitStep
            rw [hl]
            simp
      · exact ih _ t h

theorem splitStep_snd_of_hits (cache : Cache) :
    ∀ (texts : List String) (acc : Cache × List String),
      (∀ t ∈ texts, (List.lookup t cache).isSome) →
      (texts.foldl (splitStep cache true) acc).2 = acc.2 := by
  intro texts
  induction texts with
  | nil => intro acc _; rfl
  | cons a rest ih =>
      intro acc hall
      have ha := hall a (List.mem_cons_self a rest)
      rcases Option.isSome_iff_exists.mp ha with ⟨v, hv⟩
      show (rest.foldl (splitStep cache true) (splitStep cache true acc a)).2 = acc.2
      rw [ih _ (fun t ht => hall t (List.mem_cons_of_mem a ht))]
      unfold splitStep
      rw [hv]
      rfl

theorem splitStep_fst_mono (cache : Cache) (uc : Bool) :
    ∀ (texts : List String) (acc : Cache × List String) (t : String),
      (List.lookup t acc.1).isSome →
      (List.lookup t (texts.foldl (splitStep cache uc) acc).1).isSome := by
  intro texts
  induction texts with
  | nil => intro acc t h; exact h
  | cons a rest ih =>
      intro acc t h
      apply ih
      unfold splitStep
      cases uc with
      | false => simpa using h
      | true =>
          cases List.lookup a cache with
          | some v => simpa using lookup_cacheInsert_isSome acc.1 a t v h
          | none => simpa using h

theorem splitStep_fst_of_hit (cache : Cache) :
    ∀ (texts : List String) (acc : Cache × List String) (t : String),
      t ∈ texts → (List.lookup t cache).isSome →
      (List.lookup t (texts.foldl (splitStep cache true) acc).1).isSome := by
  intro texts
  induction texts with
  | nil => intro acc t h; simp at h
  | cons a rest ih =>
      intro acc t h hhit
      rcases List.mem_cons.mp h with rfl | h
      · rw [List.foldl_cons]
        apply splitStep_fst_mono
        rcases Option.isSome_iff_exists.mp hhit with ⟨v, hv⟩
        unfold splitStep
        rw [hv]
        simpa using lookup_cacheInsert_self acc.1 t v
      · exact ih _ t h hhit

theorem foldl_insertAll_chunks (api : String → Vec) :
    ∀ (cs : List (List String)) (m : Cache),
      cs.foldl (fun acc c => insertAll acc api c) m = insertAll m api cs.flatten := by
  intro cs
  induction cs with
  | nil => intro m; rfl
  | cons c rest ih =>
      intro m
      rw [List.foldl_cons, ih, List.flatten_cons, insertAll_append]

theorem embedDirect_cache_complete (cache results : Cache) (texts : List String)
    (tok : String → Nat) (api : String → Vec) (t : String)
    (h : (List.lookup t cache).isSome ∨ t ∈ texts) :
    (List.lookup t (embedDirect cache results texts tok api true).cache).isSome := by
  rw [embedDirect]
  by_cases hsum : (texts.map tok).sum ≤ 250000
  · rw [if_pos hsum]
    exact lookup_insertAll_isSome api texts cache t h
  · rw [if_neg hsum]
    show (List.lookup t ((chunksOf texts).foldl (fun acc c => insertAll acc api c)
      cache)).isSome
    rw [foldl_insertAll_chunks, chunksOf_flatten]
    exact lookup_insertAll_isSome api texts cache t h

theorem embedBatch_cache_complete (cache : Cache) (texts : List String)
    (thr : Nat) (tok : String → Nat) (api : String → Vec) (submitOk : Bool)
    (hp : (embedBatch cache texts thr tok api submitOk true).pending = false) :
    ∀ t ∈ texts,
      (List.lookup t (embedBatch cache texts thr tok api submitOk true).cache).isSome := by
  intro t ht
  rw [embedBatch] at hp ⊢
  by_cases he : (splitCached cache true texts).2.isEmpty
  · simp only [he, if_true]
    rcases splitStep_mem_snd_or_hit cache texts ([], []) t ht with hmem | hhit
    · exfalso
      rw [List.isEmpty_iff] at he
      rw [show (splitCached cache true texts).2 =
        (texts.foldl (splitStep cache true) ([], [])).2 from rfl] at he
      rw [he] at hmem
      simp at hmem
    · exact hhit
  · simp only [he, if_false, Bool.false_eq_true] at hp ⊢
    have hdisj : (List.lookup t cache).isSome ∨ t ∈ (splitCached cache true texts).2 := by
      rcases splitStep_mem_snd_or_hit cache texts ([], []) t ht with hmem | hhit
      · exact Or.inr hmem
      · exact Or.inl hhit
    by_cases hlt : (splitCached cache true texts).2.length < thr
    · rw [if_pos hlt] at hp ⊢
      exact embedDirect_cache_complete cache _ _ tok api t hdisj
    · rw [if_neg hlt] at hp ⊢
      cases submitOk with
      | true => exact Bool.noConfusion hp
      | false => exact embedDirect_cache_complete cache _ _ tok api t hdisj

/-- CLAIM C9 — cache idempotence of `EmbeddingService.embed_batch`
(embedding_service.py:145-212, 246-291).  After one call with caching
enabled that did not defer to the Batch API (its result not pending), a
second call with the identical list of texts resolves every text from the
in-memory cache: it issues zero synchronous embedding calls, submits no
bulk job, leaves the cache unchanged, and returns a result containing an
embedding for every requested text. -/
theorem embed_batch_cache_idempotent (cache : Cache) (texts : List String)
    (thr : Nat) (tok : String → Nat) (api : String → Vec) (ok1 ok2 : Bool)
    (hp : (embedBatch cache texts thr tok api ok1 true).pending = false) :
    (embedBatch (embedBatch cache texts thr tok api ok1 true).cache texts thr tok
        api ok2 true).calls = [] ∧
    (embedBatch (embedBatch cache texts thr tok api ok1 true).cache texts thr tok
        api ok2 true).pending = false ∧
    (embedBatch (embedBatch cache texts thr tok api ok1 true).cache texts thr tok
        api ok2 true).submitted = false ∧
    (embedBatch (embedBatch cache texts thr tok api ok1 true).cache texts thr tok
        api ok2 true).cache = (embedBatch cache texts thr tok api ok1 true).cache ∧
    (∀ t ∈ texts,
      (List.lookup t (embedBatch (embedBatch cache texts thr tok api ok1 true).cache
        texts thr tok api ok2 true).results).isSome) := by
  set c1 := (embedBatch cache texts thr tok api ok1 true).cache with hc1
  have hall : ∀ t ∈ texts, (List.lookup t c1).isSome :=
    embedBatch_cache_complete cache texts thr tok api ok1 hp
  have hsnd : (splitCached c1 true texts).2 = [] :=
    splitStep_snd_of_hits c1 texts ([], []) hall
  have hemp : (splitCached c1 true texts).2.isEmpty = true := by
    rw [hsnd]; rfl
  have hres : ∀ t ∈ texts,
      (List.lookup t (splitCached c1 true texts).1).isSome := by
    intro t ht
    exact splitStep_fst_of_hit c1 texts ([], []) t ht (hall t ht)
  rw [embedBatch]
  simp only [hemp, if_true]
  refine ⟨by simp, by simp, by simp, by simp, ?_⟩
  exact hres

/-- Witness for C9: after embedding two texts from an empty cache, the second
identical call issues no synchronous calls and stays non-pending. -/
theorem embed_batch_cache_idempotent_witness :
    (embedBatch (embedBatch [] ["a", "b"] 5 (fun _ => 1) (fun _ => [0]) true
        true).cache ["a", "b"] 5 (fun _ => 1) (fun _ => [0]) true true).calls = [] ∧
    (embedBatch (embedBatch [] ["a", "b"] 5 (fun _ => 1) (fun _ => [0]) true
        true).cache ["a", "b"] 5 (fun _ => 1) (fun _ => [0]) true true).pending
      = false := by
  have h := embed_batch_cache_idempotent [] ["a", "b"] 5 (fun _ => 1)
    (fun _ => [0]) true true (by decide)
  exact ⟨h.1, h.2.1⟩


end EmbeddingService

namespace VectorStore

/-- Document identifiers as returned by ChromaDB (`SearchResult.id`). -/
abbrev DocId := String

/-- `_reciprocal_rank_fusion`'s RRF smoothing constant `k=60`
(vector_store.py:260). -/
def rrfK : ℚ := 60

/-- One entry of the `scores` dict of `_reciprocal_rank_fusion`
(vector_store.py:278-299): per-document semantic and keyword RRF scores. -/
structure ScoreEntry where
  id : DocId
  semScore : ℚ
  kwScore : ℚ
  deriving Repr, DecidableEq

/-- `enumerate(results, start=1)` paired with `1.0 / (k + rank)`
(vector_store.py:281-282, 290-291): each document of a ranked result list
with its RRF score. -/
def rankedScores (l : List DocId) : List (DocId × ℚ) :=
  l.mapIdx (fun i d => (d, 1 / (rrfK + ((i : ℚ) + 1))))

/-- The semantic loop's dict write `scores[result.id] = {'semantic': rrf,
'keyword': 0.0, ...}` (vector_store.py:281-287): overwrite in place or
append, preserving Python dict insertion order. -/
def setSem (entries : List ScoreEntry) (d : DocId) (s : ℚ) : List ScoreEntry :=
  if entries.any (fun e => e.id == d) then
    entries.map (fun e => if e.id = d then ⟨d, s, 0⟩ else e)
  else entries ++ [⟨d, s, 0⟩]

/-- The keyword loop's write (vector_store.py:290-299): update the keyword
score of an existing entry, otherwise append a keyword-only entry with
semantic score 0. -/
def setKw (entries : List ScoreEntry) (d : DocId) (s : ℚ) : List ScoreEntry :=
  if entries.any (fun e => e.id == d) then
    entries.map (fun e => if e.id = d then ⟨e.id, e.semScore, s⟩ else e)
  else entries ++ [⟨d, 0, s⟩]

/-- The two scoring loops of `_reciprocal_rank_fusion`
(vector_store.py:277-299), building the `scores` dict in insertion order. -/
def fuseEntries (sem kw : List DocId) : List ScoreEntry :=
  (rankedScores kw).foldl (fun acc p => setKw acc p.1 p.2)
    ((rankedScores sem).foldl (fun acc p => setSem acc p.1 p.2) [])

/-- The combining loop (vector_store.py:301-311):
`alpha * semantic + (1 - alpha) * keyword` per dict entry, in dict order. -/
def combineScores (alpha : ℚ) (entries : List ScoreEntry) : List (DocId × ℚ) :=
  entries.map (fun e => (e.id, alpha * e.semScore + (1 - alpha) * e.kwScore))

/-- Descending comparison on the combined score, the key of
`combined_results.sort(key=lambda x: x.score, reverse=True)`
(vector_store.py:313-314). -/
def scoreGE (a b : DocId × ℚ) : Prop := b.2 ≤ a.2

instance : DecidableRel scoreGE := fun a b => inferInstanceAs (Decidable (b.2 ≤ a.2))

instance : IsTotal (DocId × ℚ) scoreGE := ⟨fun a b => le_total b.2 a.2⟩

instance : IsTrans (DocId × ℚ) scoreGE := ⟨fun _ _ _ h1 h2 => le_trans h2 h1⟩

/-- Python's stable `list.sort(reverse=True)`; insertion sort with a
descending total preorder is stable in the same way. -/
def sortByScore (l : List (DocId × ℚ)) : List (DocId × ℚ) :=
  l.insertionSort scoreGE

/-- `VectorStore._reciprocal_rank_fusion` (vector_store.py:255-316) on the
two ranked id lists. -/
def rrfFusion (sem kw : List DocId) (alpha : ℚ) : List (DocId × ℚ) :=
  sortByScore (combineScores alpha (fuseEntries sem kw))

/-- `VectorStore.hybrid_search` (vector_store.py:216-253): fuse the two
ranked lists (each already truncated to `top_k` by its own search) and
return `combined[:top_k]`. -/
def hybridSearch (sem kw : List DocId) (top_k : Nat) (alpha : ℚ) :
    List (DocId × ℚ) :=
  (rrfFusion sem kw alpha).take top_k

/-- Closed-form rank contribution of one ranked list: `1/(60 + rank)` with
1-based rank, and 0 for a document absent from the list. -/
def rrfRank (l : List DocId) (d : DocId) : ℚ :=
  if d ∈ l then 1 / (rrfK + ((List.indexOf d l : ℚ) + 1)) else 0

/-- The fused score the spec ascribes to each candidate. -/
def fusedScore (sem kw : List DocId) (alpha : ℚ) (d : DocId) : ℚ :=
  alpha * rrfRank sem d + (1 - alpha) * rrfRank kw d

theorem rankedScores_length (l : List DocId) :
    (rankedScores l).length = l.length := by
  simp [rankedScores, List.length_mapIdx]

theorem rankedScores_get (l : List DocId) (idx : Fin (rankedScores l).length) :
    (rankedScores l).get idx =
      (l.get ⟨idx.1, by simpa [rankedScores_length] using idx.2⟩,
       1 / (rrfK + ((idx.1 : ℚ) + 1))) := by
  simp [rankedScores, List.get_eq_getElem, List.getElem_mapIdx]

theorem rankedScores_eq_map (l : List DocId) (hl : l.Nodup) :
    rankedScores l = l.map (fun d => (d, rrfRank l d)) := by
  apply List.ext_getElem
  · simp [rankedScores_length]
  · intro i h1 h2
    have hi : i < l.length := by simpa [rankedScores_length] using h1
    have hget := rankedScores_get l ⟨i, h1⟩
    rw [List.get_eq_getElem] at hget
    rw [hget, List.getElem_map]
    have hlg : l.get ⟨i, hi⟩ = l[i] := List.get_eq_getElem l ⟨i, hi⟩
    rw [hlg]
    have hmem : l[i] ∈ l := List.getElem_mem hi
    have hidx : List.indexOf l[i] l = i := List.indexOf_getElem hl i hi
    simp [rrfRank, hmem, hidx]

theorem rankedScores_map_fst (l : List DocId) (hl : l.Nodup) :
    (rankedScores l).map Prod.fst = l := by
  rw [rankedScores_eq_map l hl, List.map_map]
  have hco : (Prod.fst ∘ fun d => (d, rrfRank l d)) = id := rfl
  rw [hco, List.map_id]

theorem rrfRank_pos (l : List DocId) (d : DocId) (h : d ∈ l) :
    0 < rrfRank l d := by
  rw [rrfRank, if_pos h]
  apply div_pos one_pos
  have : (0 : ℚ) ≤ (List.indexOf d l : ℚ) := by positivity
  have h60 : (0 : ℚ) < rrfK := by norm_num [rrfK]
  linarith

theorem rrfRank_eq_zero (l : List DocId) (d : DocId) (h : d ∉ l) :
    rrfRank l d = 0 := by
  rw [rrfRank, if_neg h]

theorem lookup_map_pairing (f : DocId → ℚ) :
    ∀ (l : List DocId) (d : DocId),
      List.lookup d (l.map (fun x => (x, f x))) =
        if d ∈ l then some (f d) else none := by
  intro l
  induction l with
  | nil => intro d; simp
  | cons a rest ih =>
      intro d
      by_cases hd : d = a
      · subst hd
        simp [List.lookup_cons]
      · have hbeq : (d == a) = false := by simpa [beq_eq_false_iff_ne] using hd
        simp only [List.map_cons, List.lookup_cons, hbeq]
        rw [ih d]
        by_cases hmem : d ∈ rest
        · rw [if_pos hmem, if_pos (List.mem_cons_of_mem a hmem)]
        · rw [if_neg hmem, if_neg (by simp [hd, hmem])]

theorem lookup_rankedScores (l : List DocId) (hl : l.Nodup) (d : DocId) :
    List.lookup d (rankedScores l) = if d ∈ l then some (rrfRank l d) else none := by
  rw [rankedScores_eq_map l hl, lookup_map_pairing]

theorem lookup_cons_pt (a : DocId) (p : DocId × ℚ) (l : List (DocId × ℚ)) :
    List.lookup a (p :: l) = bif a == p.1 then some p.2 else List.lookup a l := by
  obtain ⟨x, y⟩ := p
  rw [List.lookup_cons]
  cases a == x <;> rfl

theorem lookup_none_of_not_mem_fst (a : DocId) :
    ∀ l : List (DocId × ℚ), a ∉ l.map Prod.fst → List.lookup a l = none := by
  intro l
  induction l with
  | nil => intro _; rfl
  | cons p rest ih =>
      intro h
      simp only [List.map_cons, List.mem_cons, not_or] at h
      rw [lookup_cons_pt,
        show (a == p.1) = false from by simpa [beq_eq_false_iff_ne] using h.1]
      exact ih h.2

theorem any_beq_mem (q : DocId) :
    ∀ l : List DocId, (l.any fun d => d == q) = decide (q ∈ l) := by
  intro l
  induction l with
  | nil => simp
  | cons a rest ih =>
      rw [List.any_cons, ih]
      by_cases h : q = a
      · subst h; simp
      · have h1 : (a == q) = false := by
          simp only [beq_eq_false_iff_ne]
          exact fun he => h he.symm
        simp [h1, h]

/-- Read-back of one `scores` entry after the keyword loop over `ps`. -/
def updKw (ps : List (DocId × ℚ)) (e : ScoreEntry) : ScoreEntry :=
  match List.lookup e.id ps with
  | some s => ⟨e.id, e.semScore, s⟩
  | none => e

theorem updKw_id (ps : List (DocId × ℚ)) (e : ScoreEntry) :
    (updKw ps e).id = e.id := by
  unfold updKw
  cases List.lookup e.id ps <;> rfl

theorem any_congruence {α : Type} (l : List α) (f g : α → Bool)
    (h : ∀ a ∈ l, f a = g a) : l.any f = l.any g := by
  induction l with
  | nil => rfl
  | cons a rest ih =>
      rw [List.any_cons, List.any_cons, h a (List.mem_cons_self a rest),
        ih (fun x hx => h x (List.mem_cons_of_mem a hx))]

theorem foldSem_eq :
    ∀ (ps : List (DocId × ℚ)) (acc : List ScoreEntry),
      (∀ e ∈ acc, ∀ p ∈ ps, e.id ≠ p.1) →
      (ps.map Prod.fst).Nodup →
      ps.foldl (fun acc p => setSem acc p.1 p.2) acc =
        acc ++ ps.map (fun p => ⟨p.1, p.2, 0⟩) := by
  intro ps
  induction ps with
  | nil => intro acc _ _; simp
  | cons p rest ih =>
      intro acc hdisj hnd
      rw [List.foldl_cons]
      have hany : (acc.any fun e => e.id == p.1) = false := by
        rw [List.any_eq_false]
        intro e he
        simpa [beq_eq_false_iff_ne] using
          hdisj e he p (List.mem_cons_self p rest)
      have hstep : setSem acc p.1 p.2 = acc ++ [⟨p.1, p.2, 0⟩] := by
        rw [setSem, if_neg (by rw [hany]; exact Bool.false_ne_true)]
      have hd : ∀ e ∈ acc ++ [(⟨p.1, p.2, 0⟩ : ScoreEntry)], ∀ q ∈ rest, e.id ≠ q.1 := by
        intro e he q hq
        rcases List.mem_append.mp he with he | he
        · exact hdisj e he q (List.mem_cons_of_mem p hq)
        · have : e = ⟨p.1, p.2, 0⟩ := by simpa using he
          subst this
          simp only [List.map_cons, List.nodup_cons] at hnd
          intro hid
          have hid' : p.1 = q.1 := hid
          exact hnd.1 (hid' ▸ List.mem_map_of_mem Prod.fst hq)
      have hn : (rest.map Prod.fst).Nodup := by
        simp only [List.map_cons, List.nodup_cons] at hnd
        exact hnd.2
      have ihres := ih (acc ++ [(⟨p.1, p.2, 0⟩ : ScoreEntry)]) hd hn
      rw [hstep, ihres]
      simp

theorem foldKw_eq :
    ∀ (ps : List (DocId × ℚ)), (ps.map Prod.fst).Nodup →
      ∀ (acc : List ScoreEntry), (acc.map ScoreEntry.id).Nodup →
      ps.foldl (fun acc p => setKw acc p.1 p.2) acc =
        acc.map (updKw ps) ++
          (ps.filter (fun p => !(acc.any (fun e => e.id == p.1)))).map
            (fun p => ⟨p.1, 0, p.2⟩) := by
  intro ps
  induction ps with
  | nil =>
      intro _ acc _
      simp only [List.foldl_nil, List.filter_nil, List.map_nil, List.append_nil]
      symm
      calc acc.map (updKw []) = acc.map id := List.map_congr_left (fun e _ => rfl)
        _ = acc := List.map_id acc
  | cons p rest ih =>
      intro hnd acc hacc
      simp only [List.map_cons, List.nodup_cons] at hnd
      have hp1 : p.1 ∉ rest.map Prod.fst := hnd.1
      rw [List.foldl_cons]
      by_cases hany : (acc.any fun e => e.id == p.1) = true
      · -- the id is already present: in-place keyword update
        have hstep : setKw acc p.1 p.2 =
            acc.map (fun e => if e.id = p.1 then ⟨e.id, e.semScore, p.2⟩ else e) := by
          rw [setKw, if_pos hany]
        rw [hstep]
        have hids : ((acc.map (fun e =>
            if e.id = p.1 then ⟨e.id, e.semScore, p.2⟩ else e)).map ScoreEntry.id) =
            acc.map ScoreEntry.id := by
          rw [List.map_map]
          apply List.map_congr_left
          intro e _
          by_cases he : e.id = p.1 <;> simp [he]
        rw [ih hnd.2 _ (by rw [hids]; exact hacc)]
        have hpart1 : (acc.map (fun e =>
            if e.id = p.1 then ⟨e.id, e.semScore, p.2⟩ else e)).map (updKw rest) =
            acc.map (updKw (p :: rest)) := by
          rw [List.map_map]
          apply List.map_congr_left
          intro e _
          show updKw rest (if e.id = p.1 then ⟨e.id, e.semScore, p.2⟩ else e) =
            updKw (p :: rest) e
          by_cases he : e.id = p.1
          · rw [if_pos he]
            unfold updKw
            rw [show List.lookup (ScoreEntry.id ⟨e.id, e.semScore, p.2⟩) rest =
                none from by
              simp only
              exact lookup_none_of_not_mem_fst e.id rest (he ▸ hp1)]
            rw [lookup_cons_pt, show (e.id == p.1) = true from by simpa [beq_iff_eq] using he]
            rfl
          · rw [if_neg he]
            unfold updKw
            rw [lookup_cons_pt,
              show (e.id == p.1) = false from by simpa [beq_eq_false_iff_ne] using he]
            rfl
        have hpred : ∀ q ∈ rest,
            (!((acc.map (fun e =>
              if e.id = p.1 then ⟨e.id, e.semScore, p.2⟩ else e)).any
                (fun e => e.id == q.1))) =
            (!(acc.any (fun e => e.id == q.1))) := by
          intro q _
          rw [List.any_map]
          refine congrArg (! ·) ?_
          apply any_congruence
          intro e _
          by_cases he : e.id = p.1 <;> simp [Function.comp, he]
        rw [List.filter_congr hpred]
        have hfilter : (p :: rest).filter (fun q => !(acc.any (fun e => e.id == q.1))) =
            rest.filter (fun q => !(acc.any (fun e => e.id == q.1))) := by
          rw [List.filter_cons, if_neg (by rw [hany]; simp)]
        rw [hpart1, hfilter]
      · -- new id: appended keyword-only entry
        have hanyf : (acc.any fun e => e.id == p.1) = false :=
          Bool.eq_false_iff.mpr hany
        have hstep : setKw acc p.1 p.2 = acc ++ [⟨p.1, 0, p.2⟩] := by
          rw [setKw, if_neg hany]
        rw [hstep]
        have hne : ∀ e ∈ acc, e.id ≠ p.1 := by
          intro e he
          have := List.any_eq_false.mp hanyf e he
          simpa [beq_eq_false_iff_ne] using this
        have hids : ((acc ++ [(⟨p.1, 0, p.2⟩ : ScoreEntry)]).map ScoreEntry.id).Nodup := by
          rw [List.map_append]
          rw [List.nodup_append]
          refine ⟨hacc, by simp, ?_⟩
          intro x hx
          simp only [List.map_cons, List.map_nil, List.mem_singleton]
          rcases List.mem_map.mp hx with ⟨e, he, rfl⟩
          simpa using hne e he
        rw [ih hnd.2 _ hids]
        have hpart1 : (acc ++ [(⟨p.1, 0, p.2⟩ : ScoreEntry)]).map (updKw rest) =
            acc.map (updKw (p :: rest)) ++ [⟨p.1, 0, p.2⟩] := by
          rw [List.map_append]
          refine congrArg₂ (· ++ ·) ?_ ?_
          · apply List.map_congr_left
            intro e he
            show updKw rest e = updKw (p :: rest) e
            unfold updKw
            rw [lookup_cons_pt,
              show (e.id == p.1) = false from by
                simpa [beq_eq_false_iff_ne] using hne e he]
            rfl
          · simp only [List.map_cons, List.map_nil]
            refine congrArg (· :: []) ?_
            unfold updKw
            rw [show List.lookup (ScoreEntry.id ⟨p.1, 0, p.2⟩) rest = none from
              lookup_none_of_not_mem_fst p.1 rest hp1]
        have hpred : ∀ q ∈ rest,
            (!((acc ++ [(⟨p.1, 0, p.2⟩ : ScoreEntry)]).any (fun e => e.id == q.1))) =
            (!(acc.any (fun e => e.id == q.1))) := by
          intro q hq
          rw [List.any_append]
          refine congrArg (! ·) ?_
          have : ([(⟨p.1, 0, p.2⟩ : ScoreEntry)].any (fun e => e.id == q.1)) = false := by
            simp only [List.any_cons, List.any_nil, Bool.or_false]
            simp only [beq_eq_false_iff_ne]
            intro hid
            exact hp1 (hid ▸ List.mem_map_of_mem Prod.fst hq)
          rw [this, Bool.or_false]
        rw [List.filter_congr hpred]
        have hfilter : (p :: rest).filter (fun q => !(acc.any (fun e => e.id == q.1))) =
            p :: rest.filter (fun q => !(acc.any (fun e => e.id == q.1))) := by
          rw [List.filter_cons, if_pos (by rw [hanyf]; simp)]
        rw [hpart1, hfilter]
        simp

theorem any_map_comp {α β : Type} (l : List α) (f : α → β) (p : β → Bool) :
    (l.map f).any p = l.any (fun a => p (f a)) := by
  induction l with
  | nil => rfl
  | cons a rest ih => rw [List.map_cons, List.any_cons, List.any_cons, ih]

theorem fuseEntries_eq (sem kw : List DocId) (hs : sem.Nodup) (hk : kw.Nodup) :
    fuseEntries sem kw =
      (rankedScores sem).map
        (fun p => ⟨p.1, p.2, (List.lookup p.1 (rankedScores kw)).getD 0⟩) ++
      ((rankedScores kw).filter (fun p => !(decide (p.1 ∈ sem)))).map
        (fun p => ⟨p.1, 0, p.2⟩) := by
  unfold fuseEntries
  rw [foldSem_eq (rankedScores sem) [] (by intro e he; simp at he)
    (by rw [rankedScores_map_fst sem hs]; exact hs)]
  rw [List.nil_append]
  have hids : (((rankedScores sem).map
      (fun p => (⟨p.1, p.2, 0⟩ : ScoreEntry))).map ScoreEntry.id).Nodup := by
    rw [List.map_map]
    have : (ScoreEntry.id ∘ fun p : DocId × ℚ => (⟨p.1, p.2, 0⟩ : ScoreEntry)) =
        Prod.fst := rfl
    rw [this, rankedScores_map_fst sem hs]
    exact hs
  rw [foldKw_eq (rankedScores kw)
    (by rw [rankedScores_map_fst kw hk]; exact hk) _ hids]
  refine congrArg₂ (· ++ ·) ?_ ?_
  · rw [List.map_map]
    apply List.map_congr_left
    intro p _
    show updKw (rankedScores kw) ⟨p.1, p.2, 0⟩ =
      ⟨p.1, p.2, (List.lookup p.1 (rankedScores kw)).getD 0⟩
    unfold updKw
    cases h : List.lookup (ScoreEntry.id ⟨p.1, p.2, 0⟩) (rankedScores kw) with
    | some s => rfl
    | none => rfl
  · refine congrArg (List.map _) ?_
    apply List.filter_congr
    intro q _
    refine congrArg (! ·) ?_
    rw [any_map_comp, rankedScores_eq_map sem hs, any_map_comp]
    exact any_beq_mem q.1 sem

/-- The candidate documents of one fusion: the semantic list followed by the
keyword-only documents, in order. -/
def candIds (sem kw : List DocId) : List DocId :=
  sem ++ kw.filter (fun d => !(decide (d ∈ sem)))

theorem candIds_nodup (sem kw : List DocId) (hs : sem.Nodup) (hk : kw.Nodup) :
    (candIds sem kw).Nodup := by
  rw [candIds, List.nodup_append]
  refine ⟨hs, hk.filter _, ?_⟩
  intro d hd hmem
  rcases List.mem_filter.mp hmem with ⟨_, hdec⟩
  simp at hdec
  exact hdec hd

theorem mem_candIds (sem kw : List DocId) (d : DocId) :
    d ∈ candIds sem kw ↔ d ∈ sem ∨ d ∈ kw := by
  rw [candIds, List.mem_append, List.mem_filter]
  by_cases hd : d ∈ sem
  · simp [hd]
  · simp [hd]

theorem combined_eq (sem kw : List DocId) (alpha : ℚ) (hs : sem.Nodup)
    (hk : kw.Nodup) :
    combineScores alpha (fuseEntries sem kw) =
      (candIds sem kw).map (fun d => (d, fusedScore sem kw alpha d)) := by
  rw [combineScores, fuseEntries_eq sem kw hs hk, List.map_append, candIds,
    List.map_append]
  refine congrArg₂ (· ++ ·) ?_ ?_
  · rw [rankedScores_eq_map sem hs, List.map_map, List.map_map]
    apply List.map_congr_left
    intro d hd
    simp only [Function.comp_apply]
    rw [lookup_rankedScores kw hk d]
    refine congrArg (Prod.mk d) ?_
    rw [fusedScore]
    by_cases hdk : d ∈ kw
    · rw [if_pos hdk]
      rfl
    · rw [if_neg hdk, rrfRank_eq_zero kw d hdk]
      rfl
  · rw [rankedScores_eq_map kw hk, List.map_filter, List.map_map, List.map_map]
    have hcomp : ((fun p : DocId × ℚ => !(decide (p.1 ∈ sem))) ∘
        (fun d => (d, rrfRank kw d))) = (fun d => !(decide (d ∈ sem))) := rfl
    rw [hcomp]
    apply List.map_congr_left
    intro d hd
    rcases List.mem_filter.mp hd with ⟨hdk, hdec⟩
    have hds : d ∉ sem := by simpa using hdec
    show (d, alpha * (0 : ℚ) + (1 - alpha) * rrfRank kw d) =
      (d, fusedScore sem kw alpha d)
    refine congrArg (Prod.mk d) ?_
    rw [fusedScore, rrfRank_eq_zero sem d hds]

theorem rankedScores_pairwise_strict (l : List DocId) :
    List.Pairwise (fun a b : DocId × ℚ => b.2 < a.2) (rankedScores l) := by
  rw [List.pairwise_iff_getElem]
  intro i j hi hj hij
  have hgi := rankedScores_get l ⟨i, hi⟩
  rw [List.get_eq_getElem] at hgi
  have hgj := rankedScores_get l ⟨j, hj⟩
  rw [List.get_eq_getElem] at hgj
  rw [hgi, hgj]
  show 1 / (rrfK + ((j : ℚ) + 1)) < 1 / (rrfK + ((i : ℚ) + 1))
  apply one_div_lt_one_div_of_lt
  · have : (0 : ℚ) ≤ (i : ℚ) := by positivity
    norm_num [rrfK]
    linarith
  · have : (i : ℚ) < (j : ℚ) := by exact_mod_cast hij
    linarith

theorem rankedScores_sorted (l : List DocId) :
    List.Sorted scoreGE (rankedScores l) :=
  (rankedScores_pairwise_strict l).imp (fun h => le_of_lt h)

theorem rankedScores_snd_nodup (l : List DocId) :
    ((rankedScores l).map Prod.snd).Nodup := by
  have h2 : List.Pairwise (fun a b : ℚ => b < a) ((rankedScores l).map Prod.snd) := by
    rw [List.pairwise_map]
    exact rankedScores_pairwise_strict l
  exact h2.imp (fun h => ne_of_gt h)

theorem sorted_perm_nodup_snd_eq :
    ∀ (l₁ l₂ : List (DocId × ℚ)), l₁.Perm l₂ → List.Sorted scoreGE l₁ →
      List.Sorted scoreGE l₂ → (l₁.map Prod.snd).Nodup → l₁ = l₂ := by
  intro l₁
  induction l₁ with
  | nil =>
      intro l₂ hperm _ _ _
      exact List.Perm.nil_eq hperm
  | cons a t₁ ih =>
      intro l₂ hperm hs₁ hs₂ hnd
      cases l₂ with
      | nil => exact absurd hperm.symm (by simp)
      | cons b t₂ =>
          have hab : a = b := by
            by_contra hne
            have haMem : a ∈ b :: t₂ := hperm.mem_iff.mp (List.mem_cons_self a t₁)
            have hbMem : b ∈ a :: t₁ := hperm.mem_iff.mpr (List.mem_cons_self b t₂)
            have ha2 : a ∈ t₂ := by
              rcases List.mem_cons.mp haMem with h | h
              · exact absurd h hne
              · exact h
            have hb2 : b ∈ t₁ := by
              rcases List.mem_cons.mp hbMem with h | h
              · exact absurd h.symm hne
              · exact h
            have hba : a.2 ≤ b.2 := (List.sorted_cons.mp hs₂).1 a ha2
            have hab2 : b.2 ≤ a.2 := (List.sorted_cons.mp hs₁).1 b hb2
            have heq : a.2 = b.2 := le_antisymm hab2 hba |>.symm
            have : a.2 ∈ t₁.map Prod.snd := by
              rw [heq]
              exact List.mem_map_of_mem Prod.snd hb2
            rw [List.map_cons, List.nodup_cons] at hnd
            exact hnd.1 (by simpa using this)
          subst hab
          have htperm : t₁.Perm t₂ := hperm.cons_inv
          have := ih t₂ htperm (List.sorted_cons.mp hs₁).2 (List.sorted_cons.mp hs₂).2
            (by rw [List.map_cons, List.nodup_cons] at hnd; exact hnd.2)
          rw [this]

theorem sorted_partition_pos (S : List (DocId × ℚ)) (hS : List.Sorted scoreGE S) :
    S = S.filter (fun p => decide (0 < p.2)) ++
      S.filter (fun p => !(decide (0 < p.2))) := by
  induction S with
  | nil => rfl
  | cons a t ih =>
      have hhead := (List.sorted_cons.mp hS).1
      have htail := (List.sorted_cons.mp hS).2
      by_cases ha : 0 < a.2
      · rw [List.filter_cons, if_pos (by simpa using ha),
          List.filter_cons, if_neg (by simpa using ha), List.cons_append]
        rw [← ih htail]
      · rw [List.filter_cons, if_neg (by simpa using ha),
          List.filter_cons, if_pos (by simpa using ha)]
        have hnone : t.filter (fun p => decide (0 < p.2)) = [] := by
          rw [List.filter_eq_nil_iff]
          intro x hx
          have hx2 : x.2 ≤ a.2 := hhead x hx
          simp only [decide_eq_true_eq]
          intro hpos
          exact ha (lt_of_lt_of_le hpos hx2)
        have hall : t.filter (fun p => !(decide (0 < p.2))) = t := by
          rw [List.filter_eq_self]
          intro x hx
          have hx2 : x.2 ≤ a.2 := hhead x hx
          simp only [Bool.not_eq_true', decide_eq_false_iff_not]
          intro hpos
          exact ha (lt_of_lt_of_le hpos hx2)
        rw [hnone, hall, List.nil_append]

theorem sorted_take_map_fst (tl C : List DocId) (k : Nat)
    (htl : tl.Nodup) (hC : C.Nodup) (hsub : ∀ d ∈ tl, d ∈ C)
    (hlen : tl.length ≤ k)
    (hcase : (∀ d ∈ C, d ∈ tl) ∨ tl.length = k) :
    ((sortByScore (C.map (fun d => (d, rrfRank tl d)))).take k).map Prod.fst
      = tl := by
  set L := C.map (fun d => (d, rrfRank tl d)) with hL
  set S := sortByScore L with hSdef
  have hSperm : S.Perm L := List.perm_insertionSort scoreGE L
  have hSsorted : List.Sorted scoreGE S := List.sorted_insertionSort scoreGE L
  have hT : rankedScores tl = tl.map (fun d => (d, rrfRank tl d)) :=
    rankedScores_eq_map tl htl
  rcases hcase with hall | hlen'
  · have hCperm : C.Perm tl := by
      rw [List.perm_ext_iff_of_nodup hC htl]
      intro d
      exact ⟨fun h => hall d h, fun h => hsub d h⟩
    have hLperm : L.Perm (rankedScores tl) := by
      rw [hT, hL]
      exact hCperm.map _
    have hST : rankedScores tl = S :=
      sorted_perm_nodup_snd_eq (rankedScores tl) S
        (hLperm.symm.trans hSperm.symm) (rankedScores_sorted tl) hSsorted
        (rankedScores_snd_nodup tl)
    rw [← hST, List.take_of_length_le
      (by rw [rankedScores_length]; exact hlen)]
    exact rankedScores_map_fst tl htl
  · have hpart := sorted_partition_pos S hSsorted
    have hPperm : (S.filter (fun p => decide (0 < p.2))).Perm
        (L.filter (fun p => decide (0 < p.2))) := hSperm.filter _
    have hLfilter : L.filter (fun p => decide (0 < p.2)) =
        (C.filter (fun d => decide (d ∈ tl))).map (fun d => (d, rrfRank tl d)) := by
      rw [hL, List.map_filter]
      refine congrArg (List.map _) ?_
      apply List.filter_congr
      intro d _
      show decide (0 < rrfRank tl d) = decide (d ∈ tl)
      by_cases hd : d ∈ tl
      · rw [decide_eq_true (rrfRank_pos tl d hd), decide_eq_true hd]
      · rw [rrfRank_eq_zero tl d hd]
        simp [hd]
    have hfiltperm : (C.filter (fun d => decide (d ∈ tl))).Perm tl := by
      rw [List.perm_ext_iff_of_nodup (hC.filter _) htl]
      intro d
      constructor
      · intro h
        have := (List.mem_filter.mp h).2
        simpa using this
      · intro h
        exact List.mem_filter.mpr ⟨hsub d h, by simpa using h⟩
    have hPT : (S.filter (fun p => decide (0 < p.2))).Perm (rankedScores tl) := by
      refine hPperm.trans ?_
      rw [hLfilter, hT]
      exact hfiltperm.map _
    have hPeq : rankedScores tl = S.filter (fun p => decide (0 < p.2)) :=
      sorted_perm_nodup_snd_eq (rankedScores tl) _ hPT.symm
        (rankedScores_sorted tl) (hSsorted.filter _) (rankedScores_snd_nodup tl)
    have hlenP : (S.filter (fun p => decide (0 < p.2))).length = k := by
      rw [← hPeq, rankedScores_length, hlen']
    rw [hpart, List.take_left' hlenP, ← hPeq]
    exact rankedScores_map_fst tl htl

theorem fusedScore_one (sem kw : List DocId) (d : DocId) :
    fusedScore sem kw 1 d = rrfRank sem d := by
  rw [fusedScore]
  ring

theorem fusedScore_zero (sem kw : List DocId) (d : DocId) :
    fusedScore sem kw 0 d = rrfRank kw d := by
  rw [fusedScore]
  ring

/-- CLAIM C3 — `VectorStore._reciprocal_rank_fusion` and `hybrid_search`
(vector_store.py:216-316).  For any two ranked result lists (without
duplicate ids, as ChromaDB returns them), every fused candidate carries the
score `alpha*1/(60+rank_sem) + (1-alpha)*1/(60+rank_kw)` with 1-based ranks
and a zero contribution from a list the document is absent from; the
candidates are exactly the union of the two lists; the fused list is sorted
by this score in descending order; and `hybrid_search` returns its first
`top_k` entries. -/
theorem rrf_fusion_score_formula_sorted (sem kw : List DocId) (alpha : ℚ)
    (top_k : Nat) (hs : sem.Nodup) (hk : kw.Nodup) :
    (∀ p ∈ rrfFusion sem kw alpha, p.2 = fusedScore sem kw alpha p.1) ∧
    ((rrfFusion sem kw alpha).map Prod.fst).Perm (candIds sem kw) ∧
    List.Sorted scoreGE (rrfFusion sem kw alpha) ∧
    hybridSearch sem kw top_k alpha = (rrfFusion sem kw alpha).take top_k := by
  refine ⟨?_, ?_, List.sorted_insertionSort scoreGE _, rfl⟩
  · intro p hp
    have hperm : (rrfFusion sem kw alpha).Perm
        (combineScores alpha (fuseEntries sem kw)) :=
      List.perm_insertionSort scoreGE _
    have hp' : p ∈ combineScores alpha (fuseEntries sem kw) :=
      hperm.mem_iff.mp hp
    rw [combined_eq sem kw alpha hs hk] at hp'
    rcases List.mem_map.mp hp' with ⟨d, _, rfl⟩
    rfl
  · have hperm : (rrfFusion sem kw alpha).Perm
        (combineScores alpha (fuseEntries sem kw)) :=
      List.perm_insertionSort scoreGE _
    have := hperm.map Prod.fst
    rw [combined_eq sem kw alpha hs hk, List.map_map] at this
    have hco : (Prod.fst ∘ fun d => (d, fusedScore sem kw alpha d)) = id := rfl
    rw [hco, List.map_id] at this
    exact this

/-- Witness for C3 at concrete ranked lists. -/
theorem rrf_fusion_score_formula_sorted_witness :
    (∀ p ∈ rrfFusion ["a", "b"] ["b", "c"] (7/10),
      p.2 = fusedScore ["a", "b"] ["b", "c"] (7/10) p.1) ∧
    ((rrfFusion ["a", "b"] ["b", "c"] (7/10)).map Prod.fst).Perm
      (candIds ["a", "b"] ["b", "c"]) ∧
    List.Sorted scoreGE (rrfFusion ["a", "b"] ["b", "c"] (7/10)) ∧
    hybridSearch ["a", "b"] ["b", "c"] 2 (7/10) =
      (rrfFusion ["a", "b"] ["b", "c"] (7/10)).take 2 :=
  rrf_fusion_score_formula_sorted ["a", "b"] ["b", "c"] (7/10) 2
    (by decide) (by decide)

/-- CLAIM C4 — `VectorStore.hybrid_search` at the extreme fusion weights
(vector_store.py:216-316).  Both searches query the same filtered collection
with the same `n_results`, so each returns at most `top_k` ids and, when the
matching pool is smaller than `top_k`, both return exactly that pool; those
facts are the hypotheses.  Then `alpha = 1` reproduces the semantic ranking
and `alpha = 0` the keyword ranking exactly. -/
theorem hybrid_alpha_one_zero_pure_rankings (sem kw : List DocId) (k : Nat)
    (hs : sem.Nodup) (hk : kw.Nodup)
    (hsl : sem.length ≤ k) (hkl : kw.length ≤ k) :
    (((∀ d ∈ kw, d ∈ sem) ∨ sem.length = k) →
      (hybridSearch sem kw k 1).map Prod.fst = sem) ∧
    (((∀ d ∈ sem, d ∈ kw) ∨ kw.length = k) →
      (hybridSearch sem kw k 0).map Prod.fst = kw) := by
  constructor
  · intro hcase
    rw [hybridSearch, rrfFusion, combined_eq sem kw 1 hs hk,
      List.map_congr_left (fun d _ => by rw [fusedScore_one] :
        ∀ d ∈ candIds sem kw, (d, fusedScore sem kw 1 d) = (d, rrfRank sem d))]
    apply sorted_take_map_fst sem (candIds sem kw) k hs
      (candIds_nodup sem kw hs hk)
      (fun d hd => (mem_candIds sem kw d).mpr (Or.inl hd)) hsl
    rcases hcase with hsubkw | hlen
    · left
      intro d hd
      rcases (mem_candIds sem kw d).mp hd with h | h
      · exact h
      · exact hsubkw d h
    · right
      exact hlen
  · intro hcase
    rw [hybridSearch, rrfFusion, combined_eq sem kw 0 hs hk,
      List.map_congr_left (fun d _ => by rw [fusedScore_zero] :
        ∀ d ∈ candIds sem kw, (d, fusedScore sem kw 0 d) = (d, rrfRank kw d))]
    apply sorted_take_map_fst kw (candIds sem kw) k hk
      (candIds_nodup sem kw hs hk)
      (fun d hd => (mem_candIds sem kw d).mpr (Or.inr hd)) hkl
    rcases hcase with hsubsem | hlen
    · left
      intro d hd
      rcases (mem_candIds sem kw d).mp hd with h | h
      · exact hsubsem d h
      · exact h
    · right
      exact hlen

/-- Witness for C4: two-element rankings over the same document pool. -/
theorem hybrid_alpha_one_zero_pure_rankings_witness :
    ((hybridSearch ["a", "b"] ["b", "a"] 2 1).map Prod.fst = ["a", "b"]) ∧
    ((hybridSearch ["a", "b"] ["b", "a"] 2 0).map Prod.fst = ["b", "a"]) :=
  ⟨(hybrid_alpha_one_zero_pure_rankings ["a", "b"] ["b", "a"] 2
      (by decide) (by decide) (by decide) (by decide)).1 (by right; rfl),
   (hybrid_alpha_one_zero_pure_rankings ["a", "b"] ["b", "a"] 2
      (by decide) (by decide) (by decide) (by decide)).2 (by right; rfl)⟩

namespace UpdateService

/-- One worksheet row of a snapshot.  `entry = none` models a NaN `ENTRY_#`
cell, `dateOk` whether the `DATE` cell survives both parse attempts of
`extract_events`, `summary` the `str()` of the `SUMMARY` cell, and `tokens`
the tiktoken encoding of the extracted event's serialized text. -/
structure Row where
  entry : Option String
  dateOk : Bool
  summary : String
  tokens : List Nat
  deriving Repr, DecidableEq

/-- A snapshot file's rows, in worksheet order. -/
abbrev Snapshot := List Row

/-- `str(row['ENTRY_#'])` as used by `_detect_changes`
(update_service.py:281-282); a NaN cell prints as `"nan"`. -/
def rowKey (r : Row) : String := r.entry.getD "nan"

/-- `str(row['ENTRY_#']).zfill(5)` (data_processor.py:299). -/
def zfill5 (s : String) : String :=
  String.mk (List.replicate (5 - s.length) '0') ++ s

/-- The fields of `DataProcessor.Event` these claims depend on. -/
structure Event where
  entry_id : String
  summary : String
  tokens : List Nat
  deriving Repr, DecidableEq

/-- `DataProcessor.extract_events` (data_processor.py:245-321): drop rows
with a missing `ENTRY_#`, skip rows whose date fails to parse, zero-pad the
id. -/
def extractEvents (df : Snapshot) : List Event :=
  (df.filter (fun r => r.entry.isSome && r.dateOk)).map
    (fun r => ⟨zfill5 (rowKey r), r.summary, r.tokens⟩)

/-- The dict comprehension `{str(row['ENTRY_#']): row for _, row in
df.iterrows()}` (update_service.py:281-282): last row wins per key. -/
def dictOf (df : Snapshot) (k : String) : Option Row :=
  df.reverse.find? (fun r => rowKey r == k)

def dfKeys (df : Snapshot) : List String := df.map rowKey

/-- Row-level reading of `modified_ids` membership
(update_service.py:289-297): the id is common to both snapshots and the
`SUMMARY` fields of the dict entries differ. -/
def modifiedPred (oldDf newDf : Snapshot) (r : Row) : Bool :=
  decide (rowKey r ∈ dfKeys oldDf) &&
    (match dictOf oldDf (rowKey r), dictOf newDf (rowKey r) with
     | some ro, some rn => ro.summary != rn.summary
     | _, _ => false)

/-- `ChangeSet` (update_service.py:27-44). -/
structure ChangeSet where
  newE : List Event
  modifiedE : List Event
  deletedE : List Event
  deriving Repr, DecidableEq

def ChangeSet.isEmpty (c : ChangeSet) : Bool :=
  c.newE.isEmpty && c.modifiedE.isEmpty && c.deletedE.isEmpty

structure ChangeSummary where
  new : Nat
  modified : Nat
  deleted : Nat
  deriving Repr, DecidableEq

def ChangeSet.summary (c : ChangeSet) : ChangeSummary :=
  ⟨c.newE.length, c.modifiedE.length, c.deletedE.length⟩

/-- `UpdateService._detect_changes` (update_service.py:257-326): with no
current snapshot everything is new; otherwise new ids are extracted from the
rows absent from the old key set, modified ids from the common rows whose
`SUMMARY` changed, and the deleted list is always left empty ("We don't
delete, just track", line 308). -/
def detectChanges (current : Option Snapshot) (newDf : Snapshot) : ChangeSet :=
  match current with
  | none => ⟨extractEvents newDf, [], []⟩
  | some oldDf =>
      ⟨extractEvents (newDf.filter (fun r => !(decide (rowKey r ∈ dfKeys oldDf)))),
       extractEvents (newDf.filter (fun r => modifiedPred oldDf newDf r)),
       []⟩

/-- One ChromaDB document: id `f"{chunk.event_id}_{chunk.chunk_index}"`
with its text (as tokens) (vector_store.py:106-116). -/
structure IndexDoc where
  event_id : String
  chunk_index : Nat
  tokens : List Nat
  deriving Repr, DecidableEq

/-- `DataProcessor.chunk_events` over a list of events
(data_processor.py:323-429), reusing the single-event splitter. -/
def chunkEvents (events : List Event) : List IndexDoc :=
  events.flatMap (fun e =>
    (DataProcessor.chunkEvent e.tokens).mapIdx (fun i c => ⟨e.entry_id, i, c⟩))

/-- The persistent state `process_upload` touches: the current snapshot file
`DR_database_PBI.xlsx`, the ChromaDB collection content, the backup files,
and the metadata version records. -/
structure SysState where
  currentDb : Option Snapshot
  indexDocs : List IndexDoc
  backups : List (String × Snapshot)
  versions : List String
  deriving Repr, DecidableEq

structure UpdResult where
  success : Bool
  changes : Option ChangeSummary
  deriving Repr, DecidableEq

/-- Where an exception is raised inside `process_upload`, if anywhere.
`atExtract` covers steps 5-7 (extract/chunk/embed, after the backup and
before any index mutation); `atAdd` an exception after
`create_collection(reset=True)` emptied the collection and before
`add_documents` took effect; `atMetadata` after the documents were added;
`atPromote` after the version was recorded; `atCleanup` after the snapshot
was promoted. -/
inductive FailPoint where
  | noFail
  | atExtract
  | atAdd
  | atMetadata
  | atPromote
  | atCleanup
  deriving Repr, DecidableEq

/-- `UpdateService._rollback` (update_service.py:342-359): copy the backup
xlsx back over the current snapshot file.  Nothing else is restored; a
missing backup (including the `"no_backup_needed"` marker) only logs. -/
def rollback (st : SysState) (backupId : String) : SysState :=
  match List.lookup backupId st.backups with
  | some snap => { st with currentDb := some snap }
  | none => st

/-- `UpdateService.process_upload` (update_service.py:95-255).  Validation
reduces to non-emptiness (the model's rows always carry the required
columns); `versionId`/`backupId` stand for the timestamped names; a raised
exception at `fail` triggers `_rollback`; a pending Batch-API job aborts
with `success=False` and no rollback (update_service.py:190-198). -/
def processUpload (st : SysState) (upload : Snapshot)
    (versionId backupId : String) (fail : FailPoint) (pendingEmb : Bool) :
    SysState × UpdResult :=
  if upload.isEmpty then (st, ⟨false, none⟩)
  else
    let hasExisting := !st.indexDocs.isEmpty
    let changeset := detectChanges st.currentDb upload
    if changeset.isEmpty && hasExisting then
      (st, ⟨true, none⟩)
    else
      let changeset' := if changeset.isEmpty && !hasExisting then
        (⟨extractEvents upload, [], []⟩ : ChangeSet) else changeset
      let backed := match st.currentDb with
        | some db => (st.backups ++ [(backupId, db)], backupId)
        | none => (st.backups, "no_backup_needed")
      let st1 := { st with backups := backed.1 }
      if fail = FailPoint.atExtract then (rollback st1 backed.2, ⟨false, none⟩)
      else
        let chunks := chunkEvents (extractEvents upload)
        if pendingEmb then (st1, ⟨false, none⟩)
        else
          let st2 := { st1 with indexDocs := [] }
          if fail = FailPoint.atAdd then (rollback st2 backed.2, ⟨false, none⟩)
          else
            let st3 := { st2 with indexDocs := chunks }
            if fail = FailPoint.atMetadata then (rollback st3 backed.2, ⟨false, none⟩)
            else
              let st4 := { st3 with versions := st3.versions ++ [versionId] }
              if fail = FailPoint.atPromote then (rollback st4 backed.2, ⟨false, none⟩)
              else
                let st5 := { st4 with currentDb := some upload }
                if fail = FailPoint.atCleanup then (rollback st5 backed.2, ⟨false, none⟩)
                else (st5, ⟨true, some changeset'.summary⟩)

/-- CLAIM C1 — the rollback of `process_upload` does not restore the vector
index (update_service.py:247-255, 342-359).  Concrete run: the current
snapshot holds event 1, the index holds its chunk, the upload modifies the
summary; an exception during `add_documents` (after
`create_collection(reset=True)`) leaves the snapshot file restored but the
collection empty, not the pre-update content — refuting the claimed
exactly-pre-update state. -/
theorem update_rollback_restores_file_but_not_index :
    (processUpload
        ⟨some [⟨some "1", true, "alpha", [1, 2, 3]⟩],
         [⟨"00001", 0, [1, 2, 3]⟩], [], []⟩
        [⟨some "1", true, "beta", [4, 5, 6]⟩]
        "v1" "b1" FailPoint.atAdd false).1.currentDb =
      some [⟨some "1", true, "alpha", [1, 2, 3]⟩] ∧
    (processUpload
        ⟨some [⟨some "1", true, "alpha", [1, 2, 3]⟩],
         [⟨"00001", 0, [1, 2, 3]⟩], [], []⟩
        [⟨some "1", true, "beta", [4, 5, 6]⟩]
        "v1" "b1" FailPoint.atAdd false).1.indexDocs = [] ∧
    (processUpload
        ⟨some [⟨some "1", true, "alpha", [1, 2, 3]⟩],
         [⟨"00001", 0, [1, 2, 3]⟩], [], []⟩
        [⟨some "1", true, "beta", [4, 5, 6]⟩]
        "v1" "b1" FailPoint.atAdd false).2.success = false ∧
    ([⟨"00001", 0, [1, 2, 3]⟩] : List IndexDoc) ≠ [] := by
  refine ⟨?_, ?_, ?_, by decide⟩ <;> rfl

theorem event_id_of_mem_chunkEvents (events : List Event) (c : IndexDoc)
    (h : c ∈ chunkEvents events) : ∃ e ∈ events, c.event_id = e.entry_id := by
  rw [chunkEvents, List.mem_flatMap] at h
  rcases h with ⟨e, he, hc⟩
  refine ⟨e, he, ?_⟩
  rw [List.mapIdx_eq_enum_map] at hc
  rcases List.mem_map.mp hc with ⟨p, _, rfl⟩
  rfl

/-- CLAIM C5 — the A→B update scenario (update_service.py:214-217, 257-326).
Current snapshot {1,2,3}; upload {2 with changed summary, 3, 4}.  Change
detection reports exactly event 4 as new, exactly event 2 as modified, an
empty deleted list (summary {new:1, modified:1, deleted:0}), and after the
full-rebuild swap every document in the index belongs to an event of the new
snapshot — event 1 is absent. -/
theorem update_scenario_one_two_three (s1 s2 s2' s3 s4 : String)
    (t1 t2 t2' t3 t4 : List Nat) (st : SysState) (v b : String)
    (hsum : s2' ≠ s2)
    (hdb : st.currentDb = some [⟨some "1", true, s1, t1⟩,
      ⟨some "2", true, s2, t2⟩, ⟨some "3", true, s3, t3⟩]) :
    detectChanges (some [⟨some "1", true, s1, t1⟩, ⟨some "2", true, s2, t2⟩,
        ⟨some "3", true, s3, t3⟩])
      [⟨some "2", true, s2', t2'⟩, ⟨some "3", true, s3, t3⟩,
        ⟨some "4", true, s4, t4⟩] =
      ⟨[⟨"00004", s4, t4⟩], [⟨"00002", s2', t2'⟩], []⟩ ∧
    (detectChanges (some [⟨some "1", true, s1, t1⟩, ⟨some "2", true, s2, t2⟩,
        ⟨some "3", true, s3, t3⟩])
      [⟨some "2", true, s2', t2'⟩, ⟨some "3", true, s3, t3⟩,
        ⟨some "4", true, s4, t4⟩]).summary = ⟨1, 1, 0⟩ ∧
    ∀ c ∈ (processUpload st
        [⟨some "2", true, s2', t2'⟩, ⟨some "3", true, s3, t3⟩,
          ⟨some "4", true, s4, t4⟩] v b FailPoint.noFail false).1.indexDocs,
      c.event_id ≠ "00001" := by
  have hbne : (s2 != s2') = true := by
    rw [bne_iff_ne]
    exact fun h => hsum h.symm
  have hdet : detectChanges (some [⟨some "1", true, s1, t1⟩,
      ⟨some "2", true, s2, t2⟩, ⟨some "3", true, s3, t3⟩])
      [⟨some "2", true, s2', t2'⟩, ⟨some "3", true, s3, t3⟩,
        ⟨some "4", true, s4, t4⟩] =
      ⟨[⟨"00004", s4, t4⟩], [⟨"00002", s2', t2'⟩], []⟩ := by
    rw [detectChanges]
    refine congrArg₂ (fun a b => ChangeSet.mk a b []) ?_ ?_
    · rfl
    · show extractEvents (List.filter _ _) = _
      rw [show List.filter
          (fun r => modifiedPred [⟨some "1", true, s1, t1⟩,
            ⟨some "2", true, s2, t2⟩, ⟨some "3", true, s3, t3⟩]
            [⟨some "2", true, s2', t2'⟩, ⟨some "3", true, s3, t3⟩,
              ⟨some "4", true, s4, t4⟩] r)
          [⟨some "2", true, s2', t2'⟩, ⟨some "3", true, s3, t3⟩,
            ⟨some "4", true, s4, t4⟩] = [⟨some "2", true, s2', t2'⟩] from ?_]
      · rfl
      · have h2 : modifiedPred [⟨some "1", true, s1, t1⟩,
            ⟨some "2", true, s2, t2⟩, ⟨some "3", true, s3, t3⟩]
            [⟨some "2", true, s2', t2'⟩, ⟨some "3", true, s3, t3⟩,
              ⟨some "4", true, s4, t4⟩] ⟨some "2", true, s2', t2'⟩ = true := by
          rw [modifiedPred]
          show (decide ("2" ∈ ["1", "2", "3"]) && (s2 != s2')) = true
          rw [hbne]
          rfl
        have h3 : modifiedPred [⟨some "1", true, s1, t1⟩,
            ⟨some "2", true, s2, t2⟩, ⟨some "3", true, s3, t3⟩]
            [⟨some "2", true, s2', t2'⟩, ⟨some "3", true, s3, t3⟩,
              ⟨some "4", true, s4, t4⟩] ⟨some "3", true, s3, t3⟩ = true → False := by
          rw [modifiedPred]
          show (decide ("3" ∈ ["1", "2", "3"]) && (s3 != s3)) = true → False
          rw [bne_self_eq_false]
          simp
        have h4 : modifiedPred [⟨some "1", true, s1, t1⟩,
            ⟨some "2", true, s2, t2⟩, ⟨some "3", true, s3, t3⟩]
            [⟨some "2", true, s2', t2'⟩, ⟨some "3", true, s3, t3⟩,
              ⟨some "4", true, s4, t4⟩] ⟨some "4", true, s4, t4⟩ = false := by
          rw [modifiedPred]
          show (decide ("4" ∈ ["1", "2", "3"]) && _) = false
          rfl
        rw [List.filter_cons, if_pos h2, List.filter_cons,
          if_neg (fun hh => h3 hh), List.filter_cons, if_neg (by rw [h4]; simp)]
        rfl
  refine ⟨hdet, by rw [hdet]; rfl, ?_⟩
  have hproc : (processUpload st
      [⟨some "2", true, s2', t2'⟩, ⟨some "3", true, s3, t3⟩,
        ⟨some "4", true, s4, t4⟩] v b FailPoint.noFail false).1.indexDocs =
      chunkEvents (extractEvents
        [⟨some "2", true, s2', t2'⟩, ⟨some "3", true, s3, t3⟩,
          ⟨some "4", true, s4, t4⟩]) := by
    rw [processUpload]
    simp only [hdb]
    rfl
  intro c hc
  rw [hproc] at hc
  rcases event_id_of_mem_chunkEvents _ c hc with ⟨e, he, hid⟩
  have hev : extractEvents [⟨some "2", true, s2', t2'⟩,
      ⟨some "3", true, s3, t3⟩, ⟨some "4", true, s4, t4⟩] =
      [⟨"00002", s2', t2'⟩, ⟨"00003", s3, t3⟩, ⟨"00004", s4, t4⟩] := rfl
  rw [hev] at he
  rw [hid]
  have hcases : e = ⟨"00002", s2', t2'⟩ ∨ e = ⟨"00003", s3, t3⟩ ∨
      e = ⟨"00004", s4, t4⟩ := by simpa using he
  rcases hcases with rfl | rfl | rfl <;> simp

/-- Witness for C5 at concrete summaries, tokens and state. -/
theorem update_scenario_one_two_three_witness :
    detectChanges (some [⟨some "1", true, "a", [1]⟩, ⟨some "2", true, "b", [2]⟩,
        ⟨some "3", true, "c", [3]⟩])
      [⟨some "2", true, "B", [2]⟩, ⟨some "3", true, "c", [3]⟩,
        ⟨some "4", true, "d", [4]⟩] =
      ⟨[⟨"00004", "d", [4]⟩], [⟨"00002", "B", [2]⟩], []⟩ ∧
    (detectChanges (some [⟨some "1", true, "a", [1]⟩, ⟨some "2", true, "b", [2]⟩,
        ⟨some "3", true, "c", [3]⟩])
      [⟨some "2", true, "B", [2]⟩, ⟨some "3", true, "c", [3]⟩,
        ⟨some "4", true, "d", [4]⟩]).summary = ⟨1, 1, 0⟩ ∧
    ∀ c ∈ (processUpload
        ⟨some [⟨some "1", true, "a", [1]⟩, ⟨some "2", true, "b", [2]⟩,
          ⟨some "3", true, "c", [3]⟩], [⟨"00001", 0, [1]⟩], [], []⟩
        [⟨some "2", true, "B", [2]⟩, ⟨some "3", true, "c", [3]⟩,
          ⟨some "4", true, "d", [4]⟩] "v1" "b1"
        FailPoint.noFail false).1.indexDocs,
      c.event_id ≠ "00001" :=
  update_scenario_one_two_three "a" "b" "B" "c" "d" [1] [2] [2] [3] [4]
    ⟨some [⟨some "1", true, "a", [1]⟩, ⟨some "2", true, "b", [2]⟩,
      ⟨some "3", true, "c", [3]⟩], [⟨"00001", 0, [1]⟩], [], []⟩
    "v1" "b1" (by decide) rfl

theorem detectChanges_self (db : Snapshot) :
    detectChanges (some db) db = ⟨[], [], []⟩ := by
  rw [detectChanges]
  have h1 : db.filter (fun r => !(decide (rowKey r ∈ dfKeys db))) = [] := by
    rw [List.filter_eq_nil_iff]
    intro r hr
    simp [dfKeys, List.mem_map_of_mem rowKey hr]
  have h2 : db.filter (fun r => modifiedPred db db r) = [] := by
    rw [List.filter_eq_nil_iff]
    intro r _
    rw [modifiedPred]
    cases h : dictOf db (rowKey r) with
    | none => simp
    | some ro => simp [bne_self_eq_false]
  rw [h1, h2]
  rfl

/-- CLAIM C6, counterexample — `process_upload` on a byte-identical upload
(update_service.py:136-142).  The no-change early return carries
`changes=None`, not the zero summary `{new:0, modified:0, deleted:0}` the
claim states it reports. -/
theorem update_identical_snapshot_changes_field_none :
    (processUpload
        ⟨some [⟨some "1", true, "a", [1]⟩], [⟨"00001", 0, [1]⟩], [], []⟩
        [⟨some "1", true, "a", [1]⟩] "v1" "b1" FailPoint.noFail false).2.success
      = true ∧
    (processUpload
        ⟨some [⟨some "1", true, "a", [1]⟩], [⟨"00001", 0, [1]⟩], [], []⟩
        [⟨some "1", true, "a", [1]⟩] "v1" "b1" FailPoint.noFail false).2.changes
      = none ∧
    (processUpload
        ⟨some [⟨some "1", true, "a", [1]⟩], [⟨"00001", 0, [1]⟩], [], []⟩
        [⟨some "1", true, "a", [1]⟩] "v1" "b1" FailPoint.noFail false).2.changes
      ≠ some ⟨0, 0, 0⟩ ∧
    (processUpload
        ⟨some [⟨some "1", true, "a", [1]⟩], [⟨"00001", 0, [1]⟩], [], []⟩
        [⟨some "1", true, "a", [1]⟩] "v1" "b1" FailPoint.noFail false).1.indexDocs
      = [⟨"00001", 0, [1]⟩] := by
  refine ⟨rfl, rfl, by decide, rfl⟩

/-- CLAIM C6, amended — for every update whose source snapshot is
byte-identical to the current snapshot, applied while the vector index is
non-empty (and passing validation, i.e. non-empty), the update succeeds with
a "no changes" result and leaves the entire state — in particular the vector
index content — unmodified; the detected change set is
{new:0, modified:0, deleted:0}, but the result's `changes` field is left
`None` rather than carrying that zero summary. -/
theorem update_identical_snapshot_noop (st : SysState) (db : Snapshot)
    (v b : String) (fail : FailPoint) (pend : Bool)
    (hdb : st.currentDb = some db) (hne : db ≠ []) (hidx : st.indexDocs ≠ []) :
    (processUpload st db v b fail pend).2.success = true ∧
    (processUpload st db v b fail pend).2.changes = none ∧
    (processUpload st db v b fail pend).1 = st ∧
    (detectChanges (some db) db).summary = ⟨0, 0, 0⟩ := by
  have hdet := detectChanges_self db
  have hval : ¬ (db.isEmpty = true) := by
    simp only [List.isEmpty_iff]
    exact hne
  obtain ⟨x, xs, hxs⟩ := List.exists_cons_of_ne_nil hidx
  have hres : processUpload st db v b fail pend = (st, ⟨true, none⟩) := by
    rw [processUpload, if_neg hval]
    simp only [hdb, hdet, hxs]
    rfl
  exact ⟨by rw [hres], by rw [hres], by rw [hres], by rw [hdet]; rfl⟩

/-- Witness for the amended C6. -/
theorem update_identical_snapshot_noop_witness :
    (processUpload
        ⟨some [⟨some "7", true, "x", [9]⟩], [⟨"00007", 0, [9]⟩], [], []⟩
        [⟨some "7", true, "x", [9]⟩] "v2" "b2" FailPoint.noFail true).2.success
      = true ∧
    (processUpload
        ⟨some [⟨some "7", true, "x", [9]⟩], [⟨"00007", 0, [9]⟩], [], []⟩
        [⟨some "7", true, "x", [9]⟩] "v2" "b2" FailPoint.noFail true).1 =
      ⟨some [⟨some "7", true, "x", [9]⟩], [⟨"00007", 0, [9]⟩], [], []⟩ := by
  have h := update_identical_snapshot_noop
    ⟨some [⟨some "7", true, "x", [9]⟩], [⟨"00007", 0, [9]⟩], [], []⟩
    [⟨some "7", true, "x", [9]⟩] "v2" "b2" FailPoint.noFail true
    rfl (by decide) (by decide)
  exact ⟨h.1, h.2.2.1⟩

end UpdateService

namespace QueryProcessor

/-- Python's `needle in haystack` substring test, on character lists. -/
def isPrefixChars : List Char → List Char → Bool
  | [], _ => true
  | _ :: _, [] => false
  | a :: as, b :: bs => a == b && isPrefixChars as bs

def containsChars (needle : List Char) : List Char → Bool
  | [] => needle.isEmpty
  | c :: rest => isPrefixChars needle (c :: rest) || containsChars needle rest

/-- `s in q` for strings. -/
def strContains (q s : String) : Bool := containsChars s.data q.data

/-- Python regex `\w` on the lowercased ASCII queries this service sees. -/
def isWordChar (c : Char) : Bool := c.isAlphanum || c == '_'

/-- One attempted match of `re.search(r'\b(20\d{2})\b', query)`
(query_processor.py:112) at the current position: literal "20", two digits,
word boundaries on both sides. -/
def yearAt (prev : Option Char) (l : List Char) : Option Nat :=
  match l with
  | '2' :: '0' :: a :: b :: rest =>
      if a.isDigit && b.isDigit &&
          (match prev with | none => true | some c => !(isWordChar c)) &&
          (match rest with | [] => true | c :: _ => !(isWordChar c)) then
        some (2000 + 10 * (a.toNat - 48) + (b.toNat - 48))
      else none
  | _ => none

/-- Leftmost match of the year regex, scanning position by position as
`re.search` does. -/
def findYear : Option Char → List Char → Option Nat
  | _, [] => none
  | prev, c :: rest =>
      match yearAt prev (c :: rest) with
      | some y => some y
      | none => findYear (some c) rest

def searchYear (q : String) : Option Nat := findYear none q.data

/-- The `month_names` dict (query_processor.py:120-124) in insertion
order. -/
def monthTable : List (String × Nat) :=
  [("january", 1), ("february", 2), ("march", 3), ("april", 4),
   ("may", 5), ("june", 6), ("july", 7), ("august", 8),
   ("september", 9), ("october", 10), ("november", 11), ("december", 12)]

structure QDate where
  year : Nat
  month : Nat
  day : Nat
  deriving Repr, DecidableEq

def isLeap (y : Nat) : Bool := y % 4 == 0 && (y % 100 != 0 || y % 400 == 0)

/-- Length of a month, exactly what
`(datetime(next_month_year, next_month, 1) - timedelta(days=1)).day`
computes (query_processor.py:131-140). -/
def daysInMonth (y m : Nat) : Nat :=
  if m = 2 then (if isLeap y then 29 else 28)
  else if m = 4 ∨ m = 6 ∨ m = 9 ∨ m = 11 then 30
  else 31

/-- One calendar day back. -/
def prevDay (d : QDate) : QDate :=
  if 1 < d.day then ⟨d.year, d.month, d.day - 1⟩
  else if 1 < d.month then ⟨d.year, d.month - 1, daysInMonth d.year (d.month - 1)⟩
  else ⟨d.year - 1, 12, 31⟩

/-- `today - timedelta(days=n)`. -/
def subDays (d : QDate) : Nat → QDate
  | 0 => d
  | n + 1 => prevDay (subDays d n)

/-- The temporal part of the filter dict `_extract_time_filters` returns;
the code renders each date as a `"YYYY-MM-DD"` string. -/
structure TimeFilters where
  date_from : Option QDate
  date_to : Option QDate
  deriving Repr, DecidableEq

def digitsToNat (ds : List Char) : Nat :=
  ds.foldl (fun acc c => 10 * acc + (c.toNat - 48)) 0

/-- One attempted match of `re.search(r'last (\d+) months?', query)`
(query_processor.py:147) at the current position. -/
def lastMonthsAt (l : List Char) : Option Nat :=
  if isPrefixChars "last ".data l then
    let rest := l.drop 5
    let digits := rest.takeWhile Char.isDigit
    let after := rest.drop digits.length
    if digits.isEmpty then none
    else if isPrefixChars " month".data after then some (digitsToNat digits)
    else none
  else none

def findLastMonths : List Char → Option Nat
  | [] => none
  | c :: rest =>
      match lastMonthsAt (c :: rest) with
      | some n => some n
      | none => findLastMonths rest

/-- `QueryProcessor._extract_time_filters` (query_processor.py:88-153) on the
already-lowercased query, with the branch order of the code: relative cues,
this year / current-year literal, last year / prior-year literal, explicit
4-digit year, first month name in table order (assumed current year), and
finally "last N months". -/
def extractTimeFilters (today : QDate) (q : String) : TimeFilters :=
  if strContains q "recent" || strContains q "latest" || strContains q "current" then
    ⟨some (subDays today 730), none⟩
  else if strContains q "this year" || strContains q (toString today.year) then
    ⟨some ⟨today.year, 1, 1⟩, some ⟨today.year, 12, 31⟩⟩
  else if strContains q "last year" || strContains q (toString (today.year - 1)) then
    ⟨some ⟨today.year - 1, 1, 1⟩, some ⟨today.year - 1, 12, 31⟩⟩
  else
    match searchYear q with
    | some y => ⟨some ⟨y, 1, 1⟩, some ⟨y, 12, 31⟩⟩
    | none =>
        match monthTable.find? (fun p => strContains q p.1) with
        | some p =>
            ⟨some ⟨today.year, p.2, 1⟩,
             some ⟨today.year, p.2, daysInMonth today.year p.2⟩⟩
        | none =>
            match findLastMonths q.data with
            | some n => ⟨some (subDays today (n * 30)), none⟩
            | none => ⟨none, none⟩

def toLowerStr (s : String) : String := String.mk (s.data.map Char.toLower)

/-- `extract_filters` lowercases the query before `_extract_time_filters`
(query_processor.py:71-74). -/
def extractTimeFiltersOfQuery (today : QDate) (q : String) : TimeFilters :=
  extractTimeFilters today (toLowerStr q)

theorem find_first_mem {α : Type} (pred : α → Bool) :
    ∀ (l : List α) (x : α), x ∈ l → pred x = true →
      (∀ y ∈ l, y ≠ x → pred y = false) → l.find? pred = some x := by
  intro l
  induction l with
  | nil => intro x hx; simp at hx
  | cons a rest ih =>
      intro x hx hpx hothers
      by_cases hax : a = x
      · subst hax
        rw [List.find?_cons_of_pos _ hpx]
      · rw [List.find?_cons_of_neg _
          (by rw [hothers a (List.mem_cons_self a rest) hax]; exact Bool.false_ne_true)]
        refine ih x ?_ hpx (fun y hy => hothers y (List.mem_cons_of_mem a hy))
        rcases List.mem_cons.mp hx with h | h
        · exact absurd h.symm hax
        · exact h

/-- CLAIM C7 — `QueryProcessor._extract_time_filters`
(query_processor.py:88-153).  A query that contains a bare month name and
triggers none of the earlier branches — no relative cue
(recent/latest/current), no "this year"/"last year", no current- or
prior-year literal, and no word-bounded 4-digit year — receives that month's
range in the current calendar year: day 1 through the month's last day. -/
theorem month_without_year_uses_current_year (today : QDate) (q : String)
    (nm : String) (m : Nat) (hm : (nm, m) ∈ monthTable)
    (h1 : strContains q "recent" = false)
    (h2 : strContains q "latest" = false)
    (h3 : strContains q "current" = false)
    (h4 : strContains q "this year" = false)
    (h5 : strContains q (toString today.year) = false)
    (h6 : strContains q "last year" = false)
    (h7 : strContains q (toString (today.year - 1)) = false)
    (h8 : searchYear q = none)
    (h9 : strContains q nm = true)
    (h10 : ∀ p ∈ monthTable, p.2 ≠ m → strContains q p.1 = false) :
    extractTimeFilters today q =
      ⟨some ⟨today.year, m, 1⟩, some ⟨today.year, m, daysInMonth today.year m⟩⟩ := by
  have huniq : ∀ p ∈ monthTable, p ≠ (nm, m) → p.2 ≠ m := by
    fin_cases hm <;> decide
  have hfind : monthTable.find? (fun p => strContains q p.1) = some (nm, m) := by
    apply find_first_mem _ monthTable (nm, m) hm h9
    intro y hy hne
    exact h10 y hy (huniq y hy hne)
  rw [extractTimeFilters, h1, h2, h3, h4, h5, h6, h7]
  simp only [Bool.or_self, Bool.or_false, Bool.false_eq_true, if_false]
  rw [h8, hfind]

/-- Witness for C7, the spec's scenario: "measles in March" in system year
2025 yields exactly [2025-03-01, 2025-03-31]. -/
theorem month_without_year_uses_current_year_witness :
    extractTimeFiltersOfQuery ⟨2025, 10, 12⟩ "measles in March" =
      ⟨some ⟨2025, 3, 1⟩, some ⟨2025, 3, 31⟩⟩ :=
  month_without_year_uses_current_year ⟨2025, 10, 12⟩
    (toLowerStr "measles in March") "march" 3 (by decide) (by decide) (by decide)
    (by decide) (by decide) (by decide) (by decide) (by decide) (by decide)
    (by decide) (by decide)

end QueryProcessor

namespace WhereClause

open QueryProcessor in
/-- `datetime.strptime(s, '%Y-%m-%d')` on the `"YYYY-MM-DD"` strings this
pipeline produces (vector_store.py:347, 357): four digits, dash, two digits,
dash, two digits, with a valid calendar date.  A string that fails to parse
raises, which `_build_where_clause` catches and turns into "no condition". -/
def parseDate (s : String) : Option QueryProcessor.QDate :=
  match s.data with
  | [y1, y2, y3, y4, '-', m1, m2, '-', d1, d2] =>
      if y1.isDigit && y2.isDigit && y3.isDigit && y4.isDigit &&
          m1.isDigit && m2.isDigit && d1.isDigit && d2.isDigit then
        let y := QueryProcessor.digitsToNat [y1, y2, y3, y4]
        let m := QueryProcessor.digitsToNat [m1, m2]
        let d := QueryProcessor.digitsToNat [d1, d2]
        if 1 ≤ m ∧ m ≤ 12 ∧ 1 ≤ d ∧ d ≤ QueryProcessor.daysInMonth y m then
          some ⟨y, m, d⟩
        else none
      else none
  | _ => none

/-- Days since 1970-01-01 of a proleptic Gregorian date (the civil-from-days
inverse used by every calendar library). -/
def daysFromCivil (d : QueryProcessor.QDate) : Int :=
  let y : Int := (d.year : Int) - (if d.month ≤ 2 then 1 else 0)
  let era : Int := (if 0 ≤ y then y else y - 399) / 400
  let yoe : Int := y - era * 400
  let doy : Int := (153 * ((d.month : Int) + (if 2 < d.month then -3 else 9)) + 2) / 5
    + (d.day : Int) - 1
  let doe : Int := yoe * 365 + yoe / 4 - yoe / 100 + doy
  era * 146097 + doe - 719468

/-- `int(datetime.strptime(...).timestamp())` (vector_store.py:348, 358),
modelled in UTC (the code uses the host timezone; both date bounds are
converted identically). -/
def toUnix (d : QueryProcessor.QDate) : Int := daysFromCivil d * 86400

/-- One ChromaDB condition: `{field: {"$eq": v}}`, `{field: {"$gte": t}}`
or `{field: {"$lte": t}}`. -/
inductive Cond where
  | eq (field : String) (v : String)
  | gte (field : String) (t : Int)
  | lte (field : String) (t : Int)
  deriving Repr, DecidableEq

/-- The returned where clause: `None`, a single condition, or `{"$and": [...]}`
(vector_store.py:368-374). -/
inductive Where where
  | single (c : Cond)
  | conj (cs : List Cond)
  deriving Repr, DecidableEq

/-- The filter dict as this pipeline populates and reads it: the keys
`_build_where_clause` consults (`location`, `section` — written `sect`
here —, `date_from`, `date_to`, `location_contains`) plus the
`hazard_normalized` key the query interpreter produces.  `none` models an
absent key, `some ""` a present falsy value. -/
structure Filters where
  location : Option String
  sect : Option String
  date_from : Option String
  date_to : Option String
  location_contains : Option String
  hazard_normalized : Option String
  deriving Repr, DecidableEq

def presentNonEmpty (v : Option String) : Bool :=
  match v with
  | some s => !(s.isEmpty)
  | none => false

/-- Exact-match accumulation for one key (vector_store.py:338-340): a
present, truthy value contributes `{key: {"$eq": value}}`. -/
def eqCond (field : String) (v : Option String) : List Cond :=
  match v with
  | some s => if s.isEmpty then [] else [Cond.eq field s]
  | none => []

/-- Date-bound accumulation for one key (vector_store.py:343-361): a
present, truthy, parseable value contributes an inclusive `date_unix`
bound; a parse failure only logs a warning. -/
def dateCond (mk : Int → Cond) (v : Option String) : List Cond :=
  match v with
  | some s =>
      if s.isEmpty then []
      else
        match parseDate s with
        | some d => [mk (toUnix d)]
        | none => []
  | none => []

/-- The `conditions` list `_build_where_clause` accumulates
(vector_store.py:334-366): exact matches for `location` and `section`,
inclusive `date_unix` bounds for `date_from`/`date_to`,
`location_contains` explicitly `pass`ed, and no other key — in particular
`hazard_normalized` — ever read. -/
def conditionsOf (f : Filters) : List Cond :=
  eqCond "location" f.location ++ eqCond "section" f.sect ++
    dateCond (Cond.gte "date_unix") f.date_from ++
    dateCond (Cond.lte "date_unix") f.date_to

/-- `VectorStore._build_where_clause` (vector_store.py:318-374). -/
def buildWhereClause (f : Filters) : Option Where :=
  match conditionsOf f with
  | [] => none
  | [c] => some (Where.single c)
  | cs => some (Where.conj cs)

theorem mem_eqCond (field : String) (v : Option String) (c : Cond)
    (hc : c ∈ eqCond field v) :
    ∃ s, c = Cond.eq field s ∧ v = some s ∧ s.isEmpty = false := by
  cases v with
  | none => simp [eqCond] at hc
  | some s =>
      by_cases he : s.isEmpty
      · simp [eqCond, he] at hc
      · refine ⟨s, ?_, rfl, Bool.eq_false_iff.mpr he⟩
        simpa [eqCond, he] using hc

theorem mem_dateCond (mk : Int → Cond) (v : Option String) (c : Cond)
    (hc : c ∈ dateCond mk v) :
    ∃ s d, c = mk (toUnix d) ∧ v = some s ∧ parseDate s = some d := by
  cases v with
  | none => simp [dateCond] at hc
  | some s =>
      by_cases he : s.isEmpty
      · simp [dateCond, he] at hc
      · cases hp : parseDate s with
        | none => simp [dateCond, he, hp] at hc
        | some d =>
            refine ⟨s, d, ?_, rfl, hp⟩
            simpa [dateCond, he, hp] using hc

/-- CLAIM C10 — `_build_where_clause` ignores the extracted hazard and
location filters (vector_store.py:318-374, query_processor.py:55-86).  The
where clause is a function of only the `location`, `section`, `date_from`
and `date_to` keys: changing `hazard_normalized` or `location_contains` —
the keys `extract_filters` produces for hazard and location — never changes
it, and every condition it emits is an exact match on `location`/`section`
or an inclusive `date_unix` bound from a parsed date, so search results are
never restricted by the two extracted filters. -/
theorem where_clause_ignores_hazard_and_location_contains (f : Filters) :
    (∀ hz lc, buildWhereClause
        { f with hazard_normalized := hz, location_contains := lc } =
      buildWhereClause f) ∧
    (∀ c ∈ conditionsOf f,
      (∃ v, c = Cond.eq "location" v ∧ f.location = some v ∧ v.isEmpty = false) ∨
      (∃ v, c = Cond.eq "section" v ∧ f.sect = some v ∧ v.isEmpty = false) ∨
      (∃ v d, c = Cond.gte "date_unix" (toUnix d) ∧ f.date_from = some v ∧
        parseDate v = some d) ∨
      (∃ v d, c = Cond.lte "date_unix" (toUnix d) ∧ f.date_to = some v ∧
        parseDate v = some d)) := by
  constructor
  · intro hz lc
    rfl
  · intro c hc
    rw [conditionsOf, List.append_assoc, List.append_assoc] at hc
    rcases List.mem_append.mp hc with hc | hc
    · exact Or.inl (mem_eqCond "location" f.location c hc)
    rcases List.mem_append.mp hc with hc | hc
    · exact Or.inr (Or.inl (mem_eqCond "section" f.sect c hc))
    rcases List.mem_append.mp hc with hc | hc
    · exact Or.inr (Or.inr (Or.inl
        (mem_dateCond (Cond.gte "date_unix") f.date_from c hc)))
    · exact Or.inr (Or.inr (Or.inr
        (mem_dateCond (Cond.lte "date_unix") f.date_to c hc)))

/-- Witness for C10 at a filter dict holding all six keys. -/
theorem where_clause_ignores_hazard_and_location_contains_witness :
    (buildWhereClause
        ⟨some "france", some "hod", some "2025-03-01", some "2025-03-31",
          some "veracruz", some "cholera"⟩ =
      buildWhereClause
        ⟨some "france", some "hod", some "2025-03-01", some "2025-03-31",
          none, none⟩) ∧
    ((∃ v, Cond.eq "location" "france" = Cond.eq "location" v ∧
        (some "france" : Option String) = some v ∧ v.isEmpty = false) ∨
      (∃ v, Cond.eq "location" "france" = Cond.eq "section" v ∧
        (some "hod" : Option String) = some v ∧ v.isEmpty = false) ∨
      (∃ v d, Cond.eq "location" "france" = Cond.gte "date_unix" (toUnix d) ∧
        (some "2025-03-01" : Option String) = some v ∧ parseDate v = some d) ∨
      (∃ v d, Cond.eq "location" "france" = Cond.lte "date_unix" (toUnix d) ∧
        (some "2025-03-31" : Option String) = some v ∧ parseDate v = some d)) := by
  constructor
  · exact (where_clause_ignores_hazard_and_location_contains
      ⟨some "france", some "hod", some "2025-03-01", some "2025-03-31",
        none, none⟩).1 (some "cholera") (some "veracruz")
  · exact (where_clause_ignores_hazard_and_location_contains
      ⟨some "france", some "hod", some "2025-03-01", some "2025-03-31",
        some "veracruz", some "cholera"⟩).2
      (Cond.eq "location" "france") (by decide)

end WhereClause
